import Mathlib

/-!
Verification of the dialogue-generation script `multilingual/interact_id.py`
(interactive / self-play decoding with a pretrained encoder-decoder model).

The Python functions are shallowly embedded as Lean definitions:

* `build_input_from_segments` : pure list manipulation, embedded directly over
  `List ℤ` token-id lists (ids may be `-1` in `lm_labels`, hence `ℤ`).
* `top_filtering` : logits are modelled as `WithBot ℚ` (finite float values as
  rationals, `⊥` standing for `-inf`, the `filter_value` and default
  `threshold`).  The transcendental `exp` inside `F.softmax` is abstracted as a
  weight function `e : WithBot ℚ → ℚ`; theorems assume only what `exp` provides
  (positivity and monotonicity on finite values).  The three filtering stages
  (top-k, nucleus/top-p with sort + cumulative sums + shifted mask + scatter,
  threshold) follow the source statement by statement.
* `sample_sequence` : the per-iteration token actually held by `prev` when the
  `if prev.item() in special_tokens_ids: break` check runs (model forward,
  temperature, filtering, multinomial sampling and the `min_length` resampling
  loop) is abstracted as an oracle `choose : ℕ → List ℕ → ℕ`; the
  append / break control flow is embedded faithfully.
* console loops, history truncation (Python negative slicing, embedded with
  exact Python slice semantics over `ℤ`), the self-play transcript builder and
  the checkpoint-loading sequence of `run` are embedded as explicit functions,
  with console input and the sampled utterances given as oracle streams.
-/

/-! ## Python helpers: `l[-k:]` slicing and `int(str)` parsing -/

/-- Python slice `l[-k:]` for an arbitrary integer `k` (as in
`history = history[-args.max_turns:]`): the slice start `-k` is clamped
exactly as Python does, so `k = 0` yields `l[0:] = l` (the whole list) and a
negative `k` drops `-k` elements from the front. -/
def sliceFromNeg {α : Type} (k : ℤ) (l : List α) : List α :=
  let a : ℤ := -k
  let start : ℤ := if a < 0 then max ((l.length : ℤ) + a) 0 else min a (l.length : ℤ)
  l.drop start.toNat

/-- One interactive turn of `run`: `history.append(tokenizer.encode(raw_text))`,
then `history.append(out_ids)`, then `history = history[-args.max_turns:]`. -/
def interactiveTurnHistory (maxTurns : ℤ) (history : List (List ℕ))
    (userTokens outIds : List ℕ) : List (List ℕ) :=
  sliceFromNeg maxTurns (history ++ [userTokens] ++ [outIds])

/-- One inner self-play turn of `run`: `history.append(out_ids)`, then
`history = history[-args.max_turns:]`. -/
def selfplayInnerTurnHistory (maxTurns : ℤ) (history : List (List ℕ))
    (outIds : List ℕ) : List (List ℕ) :=
  sliceFromNeg maxTurns (history ++ [outIds])

/-- Value of a list of decimal digit characters, or `none` if the list is
empty or contains a non-digit. -/
def digitsVal (cs : List Char) : Option ℕ :=
  if cs ≠ [] ∧ cs.all Char.isDigit then
    some (cs.foldl (fun acc c => 10 * acc + (c.toNat - '0'.toNat)) 0)
  else none

/-- Python `int(str)` applied to a command-line token (as argparse does for
`type=int` flags): surrounding whitespace is stripped, an optional sign is
allowed, and everything else must be decimal digits; any other character
(such as the `.` in `"0.7"`) raises `ValueError`, modelled as `none`.
(Python's underscore digit grouping is irrelevant here and omitted.) -/
def pyIntChars (cs : List Char) : Option ℤ :=
  let t := ((cs.dropWhile Char.isWhitespace).reverse.dropWhile Char.isWhitespace).reverse
  match t with
  | [] => none
  | c :: rest =>
    if c = '-' then (digitsVal rest).map (fun n => -(n : ℤ))
    else if c = '+' then (digitsVal rest).map (fun n => (n : ℤ))
    else (digitsVal t).map (fun n => (n : ℤ))

/-- `int` conversion of the string supplied to the `--temperature` flag
(declared `type=int` in `run`); `none` models the `ValueError` that makes
argparse abort with a usage error. -/
def parseTemperatureArg (s : String) : Option ℤ :=
  pyIntChars s.toList

/-- Division of the final-position logits by `args.temperature`
(`logits = logits[0, -1, :] / args.temperature` in `sample_sequence`). -/
def applyTemperature (temperature : ℚ) (logits : List ℚ) : List ℚ :=
  logits.map (fun x => x / temperature)

/-! ## Console input loops -/

/-- The re-prompting loop shape shared by the language prompt
(`while lang not in [...]`) and the text prompt (`while not raw_text`) of
`run`: consecutive console inputs are `stream start, stream (start+1), ...`;
the loop returns the index of the first accepted input, `none` if `fuel`
attempts were all rejected (the Python loop would still be running). -/
def firstAccept (valid : String → Bool) (stream : ℕ → String) :
    ℕ → ℕ → Option ℕ
  | 0, _ => none
  | fuel + 1, i => if valid (stream i) then some i else firstAccept valid stream fuel (i + 1)

/-- The fixed set of accepted language codes in
`while lang not in ["en", "fr", "it", "id", "jp", "ko", "zh"]`. -/
def validLang (s : String) : Bool :=
  ["en", "fr", "it", "id", "jp", "ko", "zh"].contains s

/-- Python truthiness of `raw_text` in `while not raw_text`: accepted iff
non-empty. -/
def nonEmptyPrompt (s : String) : Bool :=
  !(s == "")

/-- The language-selection loop of `run` on an input stream. -/
def langPromptResult (stream : ℕ → String) (fuel : ℕ) : Option ℕ :=
  firstAccept validLang stream fuel 0

/-- The interactive `>>> ` prompt loop of `run` on an input stream. -/
def textPromptResult (stream : ℕ → String) (fuel : ℕ) : Option ℕ :=
  firstAccept nonEmptyPrompt stream fuel 0

/-! ## `sample_sequence` control flow -/

/-- The decoding loop of `sample_sequence` from iteration `i` with `fuel`
iterations left: `choose i out` is the token held by `prev` when control
reaches `if prev.item() in special_tokens_ids: break` (it bundles the model
forward pass, temperature scaling, `top_filtering`, sampling, and the
`min_length` resampling loop, none of which affect the append / break
structure); a special token breaks out of the loop, any other token is
appended to `current_output`. -/
def sampleSequenceFrom (special : List ℕ) (choose : ℕ → List ℕ → ℕ) :
    ℕ → ℕ → List ℕ → List ℕ
  | 0, _, out => out
  | fuel + 1, i, out =>
    let prev := choose i out
    if prev ∈ special then out
    else sampleSequenceFrom special choose fuel (i + 1) (out ++ [prev])

/-- `sample_sequence`: `current_output` defaults to `[]` when the caller
passes `None`, then the loop `for i in range(args.max_length)` runs. -/
def sample_sequence (special : List ℕ) (choose : ℕ → List ℕ → ℕ)
    (maxLength : ℕ) (currentOutput : Option (List ℕ)) : List ℕ :=
  sampleSequenceFrom special choose maxLength 0 (currentOutput.getD [])

/-! ## The checkpoint-loading sequence of `run` -/

/-- The straight-line loading sequence of `run` between argument parsing and
the language prompt, with each fallible external step (tokenizer, config,
`Model2Model.from_pretrained`, `open`/`json.load` of `added_tokens.json`,
`torch.load`/`load_state_dict`) given as an `Except` oracle.  `run` wraps
none of them in `try`/`except`, so the sequence is plain left-to-right
propagation: the first raised exception aborts everything after it. -/
def loadPhase {Tok Cfg Mdl SMap SDict E : Type}
    (loadTokenizer : Except E Tok) (loadConfig : Except E Cfg)
    (loadModel : Cfg → Except E Mdl) (loadAddedTokens : Except E SMap)
    (loadStateDict : Except E SDict) : Except E (Tok × Mdl × SMap × SDict) := do
  let tok ← loadTokenizer
  let cfg ← loadConfig
  let mdl ← loadModel cfg
  let smap ← loadAddedTokens
  let sd ← loadStateDict
  pure (tok, mdl, smap, sd)

/-! ## Self-play transcripts -/

/-- One entry of the `"dialog"` list in a self-play transcript line. -/
structure DialogEntry where
  speaker : String
  text : String
deriving DecidableEq

/-- Python `"".join(out_text.split())`: all whitespace removed (applied to
generated text when the chosen language is `<jp>` or `<zh>`). -/
def stripAllWhitespace (s : String) : String :=
  String.join (s.split Char.isWhitespace)

/-- The text recorded (and printed) for generated turn `i`:
`"".join(out_text.split())` for `<jp>`/`<zh>`, the decoded text otherwise. -/
def turnText (lang t : String) : String :=
  if lang = "<jp>" ∨ lang = "<zh>" then stripAllWhitespace t else t

/-- The speaker recorded for generated turn `i`:
`"human_evaluator" if i % 2 else "model"`. -/
def turnSpeaker (i : ℕ) : String :=
  if i % 2 = 1 then "human_evaluator" else "model"

/-- The `"dialog"` list of one self-play conversation: it starts as
`[{"speaker": "human_evaluator", "text": starter}]` and the
`for i in range(13)` loop appends one entry per generated turn, where
`genText i` is the decoded `out_text` of turn `i`. -/
def selfplayDialog (lang starter : String) (genText : ℕ → String) : List DialogEntry :=
  (List.range 13).foldl
    (fun d i => d ++ [⟨turnSpeaker i, turnText lang (genText i)⟩])
    [⟨"human_evaluator", starter⟩]

/-- The JSON lines appended to the transcript file over the whole
`for j in range(50)` self-play loop (the file is opened in append mode once
per conversation and receives one `json.dump` plus one `'\n'`, i.e. exactly
one line per conversation); `texts j i` is the decoded `out_text` of turn `i`
of conversation `j`. -/
def selfplayLines (lang : String) (starters : ℕ → String)
    (texts : ℕ → ℕ → String) : List (List DialogEntry) :=
  (List.range 50).foldl
    (fun acc j => acc ++ [selfplayDialog lang (starters j) (texts j)]) []

/-- `save_path + prefix + LANG_MAP[lang] + '_output_new.jsonl'` with
`save_path = "selfplay/"` and `prefix = "multi_Bert2Bert_"`. -/
def selfplayFilename (langName : String) : String :=
  "selfplay/" ++ "multi_Bert2Bert_" ++ langName ++ "_output_new.jsonl"

/-- The `LANG_MAP` dictionary of the script. -/
def LANG_MAP : List (String × String) :=
  [("<en>", "En"), ("<fr>", "Fr"), ("<it>", "It"), ("<id>", "Id"),
   ("<jp>", "Jp"), ("<ko>", "Ko"), ("<zh>", "Zh")]

/-! ## Self-play history evolution across conversations -/

/-- History at the end of one self-play conversation, starting from the
history `hist` left by the previous conversations: the starter is appended
(`history.append(tokenizer.encode(starter))`), then each of the 13 generated
turns appends `out_ids` and truncates (`history = history[-args.max_turns:]`);
`outs i` is the `out_ids` of inner turn `i`. -/
def selfplayConvEnd (maxTurns : ℤ) (hist : List (List ℕ))
    (starterTok : List ℕ) (outs : ℕ → List ℕ) : List (List ℕ) :=
  (List.range 13).foldl
    (fun h i => sliceFromNeg maxTurns (h ++ [outs i])) (hist ++ [starterTok])

/-- History at the start of self-play conversation `j` (0-based): `history`
is initialised to `[]` once, before the `for j in range(50)` loop, and is
never reset inside it, so conversation `j + 1` starts from whatever
conversation `j` left behind.  `starterToks j` is the encoded starter and
`outs j i` the `out_ids` of turn `i` of conversation `j`. -/
def selfplayHistStart (maxTurns : ℤ) (starterToks : ℕ → List ℕ)
    (outs : ℕ → ℕ → List ℕ) : ℕ → List (List ℕ)
  | 0 => []
  | j + 1 =>
    selfplayConvEnd maxTurns (selfplayHistStart maxTurns starterToks outs j)
      (starterToks j) (outs j)

/-- The `history` argument passed to the first `sample_sequence` call of
self-play conversation `j`: the history carried over from previous
conversations with conversation `j`'s own starter appended. -/
def selfplayFirstCallHistory (maxTurns : ℤ) (starterToks : ℕ → List ℕ)
    (outs : ℕ → ℕ → List ℕ) (j : ℕ) : List (List ℕ) :=
  selfplayHistStart maxTurns starterToks outs j ++ [starterToks j]

/-! ## `build_input_from_segments` -/

/-- The dictionary returned by `build_input_from_segments` (token ids are
modelled as `ℤ` because `lm_labels` uses `-1`). -/
structure BuildInstance where
  input_ids : List ℤ
  token_type_ids : List ℤ
  lm_labels : List ℤ
  lang_id : List ℤ
deriving DecidableEq

/-- `build_input_from_segments`, embedded statement by statement.  The five
ids `bos, eos, persona_token, speaker1, speaker2` are
`[special_map[token] for token in SPECIAL_TOKENS[:5]]` and `lang_id_token`
is `special_map[lang_id]`; the lookups in the loaded `special_map` are
abstracted as the resulting integer ids. -/
def build_input_from_segments (persona : List (List ℤ)) (history : List (List ℤ))
    (reply : List ℤ) (bos eos persona_token speaker1 speaker2 lang_id_token : ℤ)
    (lm_labels : Bool) (with_eos : Bool) : BuildInstance :=
  let personality := persona.foldl (fun acc sent => acc ++ [persona_token] ++ sent) []
  let sequence := [personality] ++ history
  let sequence2 := [sequence.headD []] ++
    (sequence.drop 1).enum.map
      (fun p => [if p.1 % 2 = 1 then speaker2 else speaker1] ++ p.2)
  let response := [bos] ++ reply ++ (if with_eos then [eos] else [])
  { input_ids := sequence2.flatten
    token_type_ids :=
      List.replicate (sequence2.headD []).length persona_token ++
        ((sequence2.drop 1).enum.map
          (fun p => List.replicate p.2.length
            (if p.1 % 2 = 1 then speaker2 else speaker1))).flatten
    lm_labels := if lm_labels then response else List.replicate response.length (-1)
    lang_id := [lang_id_token] }

/-! ## `top_filtering`

Logit values are `WithBot ℚ`: a finite float is a rational, `⊥` is `-inf`
(the default `threshold` and `filter_value`).  `F.softmax` is
`exp(x) / Σ exp(y)`; the weight function `exp` is abstracted as a parameter
`e : WithBot ℚ → ℚ` so that everything stays computable, and theorems assume
of `e` exactly what `exp` satisfies (positive and monotone on finite values,
`0` at `-inf`). -/

/-- The normalising denominator of `F.softmax` on a list of logits. -/
def softmaxSum (e : WithBot ℚ → ℚ) (l : List (WithBot ℚ)) : ℚ :=
  (l.map e).sum

/-- `F.softmax(l, dim=-1)` with weight function `e` in place of `exp`. -/
def softmax (e : WithBot ℚ → ℚ) (l : List (WithBot ℚ)) : List ℚ :=
  l.map (fun x => e x / softmaxSum e l)

/-- `torch.cumsum` with running total `acc`. -/
def cumsumFrom (acc : ℚ) : List ℚ → List ℚ
  | [] => []
  | x :: xs => (acc + x) :: cumsumFrom (acc + x) xs

/-- `torch.cumsum(_, dim=-1)`. -/
def cumsum (l : List ℚ) : List ℚ :=
  cumsumFrom 0 l

/-- `torch.sort(logits, descending=True)` on index/value pairs: a stable sort
by descending value. -/
def sortPairsDesc (l : List (ℕ × WithBot ℚ)) : List (ℕ × WithBot ℚ) :=
  l.mergeSort (fun a b => decide (b.2 ≤ a.2))

/-- The top-k stage of `top_filtering`:
`top_k = min(top_k, logits.size(-1))`, and if `top_k > 0` every logit
strictly below the `top_k`-th largest one is set to `filter_value`. -/
def topKStage (top_k : ℕ) (filter_value : WithBot ℚ) (logits : List (WithBot ℚ)) :
    List (WithBot ℚ) :=
  let k := min top_k logits.length
  if 0 < k then
    let kthValue := ((logits.mergeSort (fun a b => decide (b ≤ a))).drop (k - 1)).headD ⊥
    logits.map (fun x => if x < kthValue then filter_value else x)
  else logits

/-- The nucleus (top-p) stage of `top_filtering`, for `top_p > 0`: sort the
logits descending, take the cumulative softmax probabilities, mark the sorted
positions whose cumulative probability exceeds `top_p`, shift the mask right
by one (keeping the first token above the threshold), and set the logits at
the marked original indices to `filter_value`. -/
def topPStage (e : WithBot ℚ → ℚ) (top_p : ℚ) (filter_value : WithBot ℚ)
    (logits : List (WithBot ℚ)) : List (WithBot ℚ) :=
  if 0 < top_p then
    let sorted := sortPairsDesc logits.enum
    let sorted_logits := sorted.map Prod.snd
    let sorted_indices := sorted.map Prod.fst
    let cumulative_probabilities := cumsum (softmax e sorted_logits)
    let sorted_indices_to_remove := cumulative_probabilities.map (fun c => decide (top_p < c))
    let shifted := false :: sorted_indices_to_remove.dropLast
    let indices_to_remove : List ℕ :=
      (sorted_indices.zip shifted).filterMap (fun p => if p.2 then some p.1 else none)
    logits.enum.map (fun p => if p.1 ∈ indices_to_remove then filter_value else p.2)
  else logits

/-- The final threshold stage of `top_filtering`:
`indices_to_remove = logits < threshold` (with the default
`threshold = -inf` nothing is ever below it). -/
def thresholdStage (threshold filter_value : WithBot ℚ) (logits : List (WithBot ℚ)) :
    List (WithBot ℚ) :=
  logits.map (fun x => if x < threshold then filter_value else x)

/-- `top_filtering(logits, top_k, top_p, threshold, filter_value)`: the three
stages applied in source order to the (in-place mutated) logits. -/
def top_filtering (e : WithBot ℚ → ℚ) (top_k : ℕ) (top_p : ℚ)
    (threshold filter_value : WithBot ℚ) (logits : List (WithBot ℚ)) :
    List (WithBot ℚ) :=
  thresholdStage threshold filter_value
    (topPStage e top_p filter_value
      (topKStage top_k filter_value logits))

/-- Softmax probability of token `i` of the logits list `lw` (the quantity
the nucleus-filtering claim speaks about), with weight function `e`. -/
def tokenProb (e : WithBot ℚ → ℚ) (lw : List (WithBot ℚ)) (i : ℕ) : ℚ :=
  e (lw.getD i ⊥) / softmaxSum e lw

/-- Cumulative softmax probability of a set of token indices. -/
def massOf (e : WithBot ℚ → ℚ) (lw : List (WithBot ℚ)) (S : Finset ℕ) : ℚ :=
  ∑ i ∈ S, tokenProb e lw i

/-! ## Helper lemmas -/

lemma sampleSequenceFrom_length_le (special : List ℕ) (choose : ℕ → List ℕ → ℕ) :
    ∀ (fuel i : ℕ) (out : List ℕ),
      (sampleSequenceFrom special choose fuel i out).length ≤ out.length + fuel := by
  intro fuel
  induction fuel with
  | zero => intro i out; simp [sampleSequenceFrom]
  | succ n ih =>
    intro i out
    rw [sampleSequenceFrom]
    by_cases h : choose i out ∈ special
    · simp only [h, if_true]; omega
    · simp only [h, if_false]
      have := ih (i + 1) (out ++ [choose i out])
      simp only [List.length_append, List.length_singleton] at this
      omega

lemma sliceFromNeg_length_le {α : Type} (k : ℤ) (hk : 1 ≤ k) (l : List α) :
    ((sliceFromNeg k l).length : ℤ) ≤ k := by
  simp only [sliceFromNeg, List.length_drop]
  have hneg : (-k : ℤ) < 0 := by omega
  rw [if_pos hneg]
  omega

lemma sliceFromNeg_append_decomp {α : Type} (k : ℤ) (hk : 1 ≤ k) (l : List α) (x : α) :
    ∃ t, sliceFromNeg k (l ++ [x]) = t ++ [x] := by
  simp only [sliceFromNeg]
  have hneg : (-k : ℤ) < 0 := by omega
  rw [if_pos hneg]
  refine ⟨l.drop (max (((l ++ [x]).length : ℤ) + -k) 0).toNat, ?_⟩
  rw [List.drop_append_of_le_length]
  simp only [List.length_append, List.length_singleton]
  omega

lemma firstAccept_some_spec (valid : String → Bool) (stream : ℕ → String) :
    ∀ (fuel start i : ℕ), firstAccept valid stream fuel start = some i →
      start ≤ i ∧ valid (stream i) = true ∧
        ∀ j, start ≤ j → j < i → valid (stream j) = false := by
  intro fuel
  induction fuel with
  | zero => intro start i h; simp [firstAccept] at h
  | succ n ih =>
    intro start i h
    rw [firstAccept] at h
    by_cases hv : valid (stream start) = true
    · rw [if_pos hv] at h
      obtain rfl : start = i := by injection h
      exact ⟨le_refl _, hv, fun j hj1 hj2 => absurd hj1 (by omega)⟩
    · rw [if_neg hv] at h
      obtain ⟨h1, h2, h3⟩ := ih (start + 1) i h
      refine ⟨by omega, h2, fun j hj1 hj2 => ?_⟩
      rcases Nat.eq_or_lt_of_le hj1 with rfl | hlt
      · exact Bool.eq_false_iff.mpr hv
      · exact h3 j hlt hj2

lemma firstAccept_immediate (valid : String → Bool) (stream : ℕ → String)
    (fuel start : ℕ) (h : valid (stream start) = true) :
    firstAccept valid stream (fuel + 1) start = some start := by
  rw [firstAccept, if_pos h]

/-! ## Claim theorems: decoding length, history window, console input,
temperature flag, load-phase errors -/

/-- C2: with `current_output = None`, `sample_sequence` returns at most
`max_length` tokens — the loop `for i in range(args.max_length)` runs at most
`max_length` iterations and each iteration appends at most one token. -/
theorem sample_sequence_length_le (special : List ℕ) (choose : ℕ → List ℕ → ℕ)
    (maxLength : ℕ) :
    (sample_sequence special choose maxLength none).length ≤ maxLength := by
  have := sampleSequenceFrom_length_le special choose maxLength 0 []
  simpa [sample_sequence] using this

/-- C3 (amended): for every `max_turns ≥ 1`, the truncation
`history = history[-args.max_turns:]` performed after each completed dialogue
turn — in the interactive loop and in the self-play inner loop — leaves at
most `max_turns` utterance token lists in `history`.  (For `max_turns = 0`
the Python slice `history[-0:]` is the whole list, see the counterexample.) -/
theorem history_window_bounded (maxTurns : ℤ) (history : List (List ℕ))
    (u o : List ℕ) (hk : 1 ≤ maxTurns) :
    ((interactiveTurnHistory maxTurns history u o).length : ℤ) ≤ maxTurns ∧
    ((selfplayInnerTurnHistory maxTurns history o).length : ℤ) ≤ maxTurns :=
  ⟨sliceFromNeg_length_le maxTurns hk _, sliceFromNeg_length_le maxTurns hk _⟩

theorem history_window_bounded_witness :
    (1 : ℤ) ≤ 3 ∧
      ((interactiveTurnHistory 3 [[9], [8]] [1] [2]).length : ℤ) ≤ 3 ∧
      ((selfplayInnerTurnHistory 3 [[9], [8]] [2]).length : ℤ) ≤ 3 :=
  ⟨by norm_num,
    (history_window_bounded 3 [[9], [8]] [1] [2] (by norm_num)).1,
    (history_window_bounded 3 [[9], [8]] [1] [2] (by norm_num)).2⟩

/-- C3 counterexample: with `max_turns = 0`, one interactive turn from an
empty history leaves 2 utterances in `history` (Python `history[-0:]` is
`history[0:]`, the whole list), not at most `0`. -/
theorem history_window_counterexample_max_turns_zero :
    interactiveTurnHistory 0 [] [1] [2] = [[1], [2]] ∧
      ¬ (((interactiveTurnHistory 0 [] [1] [2]).length : ℤ) ≤ 0) := by
  constructor
  · rfl
  · decide

/-- C4: the language prompt repeats until the entered string is one of
`en, fr, it, id, jp, ko, zh` and the `>>> ` prompt repeats while the entered
text is empty: whenever either loop finishes it has accepted exactly the
first valid input (everything before it was re-prompted), an invalid input is
never accepted, and a valid (respectively non-empty) first input is accepted
immediately with no re-prompt. -/
theorem console_reprompt_until_valid (stream1 stream2 : ℕ → String) (fuel : ℕ) :
    (∀ i, langPromptResult stream1 fuel = some i →
      validLang (stream1 i) = true ∧ ∀ j, j < i → validLang (stream1 j) = false) ∧
    (validLang (stream1 0) = true → langPromptResult stream1 (fuel + 1) = some 0) ∧
    (∀ i, textPromptResult stream2 fuel = some i →
      nonEmptyPrompt (stream2 i) = true ∧ ∀ j, j < i → nonEmptyPrompt (stream2 j) = false) ∧
    (nonEmptyPrompt (stream2 0) = true → textPromptResult stream2 (fuel + 1) = some 0) := by
  refine ⟨fun i h => ?_, fun h => firstAccept_immediate _ _ _ _ h,
    fun i h => ?_, fun h => firstAccept_immediate _ _ _ _ h⟩
  · obtain ⟨-, h2, h3⟩ := firstAccept_some_spec validLang stream1 fuel 0 i h
    exact ⟨h2, fun j hj => h3 j (Nat.zero_le j) hj⟩
  · obtain ⟨-, h2, h3⟩ := firstAccept_some_spec nonEmptyPrompt stream2 fuel 0 i h
    exact ⟨h2, fun j hj => h3 j (Nat.zero_le j) hj⟩

theorem console_reprompt_until_valid_witness :
    validLang "en" = true ∧ langPromptResult (fun _ => "en") 1 = some 0 ∧
      nonEmptyPrompt "hi" = true ∧ textPromptResult (fun _ => "hi") 1 = some 0 :=
  ⟨by decide,
    (console_reprompt_until_valid (fun _ => "en") (fun _ => "hi") 0).2.1 (by decide),
    by decide,
    (console_reprompt_until_valid (fun _ => "en") (fun _ => "hi") 0).2.2.2 (by decide)⟩

/-- C6: the `--temperature` flag is declared with `type=int` although its
documented default is the float `0.7`; Python `int("0.7")` raises
`ValueError` (the `.` is not a digit), so argparse aborts with a usage error
instead of storing `0.7` — while genuinely integral strings are parsed. -/
theorem temperature_flag_int_conversion :
    parseTemperatureArg "0.7" = none ∧
      parseTemperatureArg "2" = some 2 ∧
      parseTemperatureArg "-3" = some (-3) := by
  refine ⟨?_, ?_, ?_⟩ <;> rfl

/-- C7: no step of the loading sequence in `run` (tokenizer, config, model,
`added_tokens.json`, state dict) is wrapped in a handler: whichever step
raises first, its error is the result of the whole sequence, with no
recovery, re-prompt or fallback. -/
theorem load_failures_propagate {Tok Cfg Mdl SMap SDict E : Type}
    (lt : Except E Tok) (lc : Except E Cfg) (lm : Cfg → Except E Mdl)
    (la : Except E SMap) (ls : Except E SDict) (e : E) :
    (lt = .error e → loadPhase lt lc lm la ls = .error e) ∧
    (∀ c0, lt = .ok c0 → lc = .error e → loadPhase lt lc lm la ls = .error e) ∧
    (∀ c0 c1, lt = .ok c0 → lc = .ok c1 → lm c1 = .error e →
      loadPhase lt lc lm la ls = .error e) ∧
    (∀ c0 c1 c2, lt = .ok c0 → lc = .ok c1 → lm c1 = .ok c2 → la = .error e →
      loadPhase lt lc lm la ls = .error e) ∧
    (∀ c0 c1 c2 c3, lt = .ok c0 → lc = .ok c1 → lm c1 = .ok c2 → la = .ok c3 →
      ls = .error e → loadPhase lt lc lm la ls = .error e) := by
  refine ⟨?_, ?_, ?_, ?_, ?_⟩
  · intro h; subst h; rfl
  · intro c0 h1 h2; subst h1; subst h2; rfl
  · intro c0 c1 h1 h2 h3; subst h1; subst h2
    simp [loadPhase, Bind.bind, Except.bind, h3]
  · intro c0 c1 c2 h1 h2 h3 h4; subst h1; subst h2; subst h4
    simp [loadPhase, Bind.bind, Except.bind, h3]
  · intro c0 c1 c2 c3 h1 h2 h3 h4 h5; subst h1; subst h2; subst h4; subst h5
    simp [loadPhase, Bind.bind, Except.bind, h3]

theorem load_failures_propagate_witness :
    @loadPhase ℕ ℕ ℕ ℕ ℕ String (.ok 1) (.error "missing checkpoint")
        (fun _ => .ok 2) (.ok 3) (.ok 4) = .error "missing checkpoint" :=
  (load_failures_propagate (.ok 1) (.error "missing checkpoint")
    (fun _ => .ok 2) (.ok 3) (.ok 4) "missing checkpoint").2.1 1 rfl rfl

/-! ## Self-play transcript and history theorems -/

lemma mem_of_getElem?_eq_some {α : Type} {l : List α} {n : ℕ} {a : α}
    (h : l[n]? = some a) : a ∈ l := by
  have hn : n < l.length := by
    by_contra hc
    rw [List.getElem?_eq_none (by omega)] at h
    exact Option.noConfusion h
  rw [List.getElem?_eq_getElem hn] at h
  exact Option.some.inj h ▸ List.getElem_mem hn

lemma range_foldl_append {α : Type} (f : ℕ → α) :
    ∀ (n : ℕ) (init : List α),
      (List.range n).foldl (fun acc j => acc ++ [f j]) init =
        init ++ (List.range n).map f := by
  intro n
  induction n with
  | zero => intro init; simp
  | succ m ih =>
    intro init
    rw [List.range_succ, List.foldl_append, ih]
    simp [List.range_succ]

lemma selfplayLines_eq_map (lang : String) (starters : ℕ → String)
    (texts : ℕ → ℕ → String) :
    selfplayLines lang starters texts =
      (List.range 50).map (fun j => selfplayDialog lang (starters j) (texts j)) := by
  rw [selfplayLines, range_foldl_append]
  simp

lemma selfplayDialog_eq_cons (lang starter : String) (genText : ℕ → String) :
    selfplayDialog lang starter genText =
      ⟨"human_evaluator", starter⟩ ::
        (List.range 13).map (fun i => ⟨turnSpeaker i, turnText lang (genText i)⟩) := by
  rw [selfplayDialog, range_foldl_append]
  simp

/-- C5: the self-play loop appends exactly one JSON line per conversation —
50 lines over the whole run — and the `dialog` list of line `j` has exactly
14 entries: the randomly chosen starter (spoken by `human_evaluator`)
followed by the 13 generated turns of conversation `j`, in order. -/
theorem selfplay_transcript_shape (lang : String) (starters : ℕ → String)
    (texts : ℕ → ℕ → String) :
    (selfplayLines lang starters texts).length = 50 ∧
    (∀ j, j < 50 → (selfplayLines lang starters texts)[j]? =
      some (selfplayDialog lang (starters j) (texts j))) ∧
    (∀ j, selfplayDialog lang (starters j) (texts j) =
      ⟨"human_evaluator", starters j⟩ ::
        (List.range 13).map (fun i => ⟨turnSpeaker i, turnText lang (texts j i)⟩)) ∧
    (∀ j, (selfplayDialog lang (starters j) (texts j)).length = 14) := by
  refine ⟨?_, fun j hj => ?_, fun j => selfplayDialog_eq_cons _ _ _, fun j => ?_⟩
  · rw [selfplayLines_eq_map]; simp
  · rw [selfplayLines_eq_map, List.getElem?_map, List.getElem?_range hj, Option.map_some']
  · rw [selfplayDialog_eq_cons]; simp

theorem selfplay_transcript_shape_witness :
    (selfplayLines "<en>" (fun _ => "hello, how are you doing today?")
        (fun _ _ => "fine")).length = 50 ∧
    (selfplayLines "<en>" (fun _ => "hello, how are you doing today?")
        (fun _ _ => "fine"))[0]? =
      some (selfplayDialog "<en>" "hello, how are you doing today?" (fun _ => "fine")) ∧
    (selfplayDialog "<en>" "hello, how are you doing today?" (fun _ => "fine")).length = 14 :=
  ⟨(selfplay_transcript_shape "<en>" (fun _ => "hello, how are you doing today?")
      (fun _ _ => "fine")).1,
    (selfplay_transcript_shape "<en>" (fun _ => "hello, how are you doing today?")
      (fun _ _ => "fine")).2.1 0 (by norm_num),
    (selfplay_transcript_shape "<en>" (fun _ => "hello, how are you doing today?")
      (fun _ _ => "fine")).2.2.2 0⟩

lemma selfplayConvEnd_eq_slice (maxTurns : ℤ) (hist : List (List ℕ))
    (st : List ℕ) (outs : ℕ → List ℕ) :
    selfplayConvEnd maxTurns hist st outs =
      sliceFromNeg maxTurns
        (((List.range 12).foldl (fun h i => sliceFromNeg maxTurns (h ++ [outs i]))
          (hist ++ [st])) ++ [outs 12]) := by
  have h13 : (13 : ℕ) = 12 + 1 := rfl
  rw [selfplayConvEnd, h13, List.range_succ, List.foldl_append]
  simp only [List.foldl_cons, List.foldl_nil]

lemma selfplayConvEnd_decomp (maxTurns : ℤ) (hk : 1 ≤ maxTurns)
    (hist : List (List ℕ)) (st : List ℕ) (outs : ℕ → List ℕ) :
    ∃ t, selfplayConvEnd maxTurns hist st outs = t ++ [outs 12] := by
  rw [selfplayConvEnd_eq_slice]
  exact sliceFromNeg_append_decomp maxTurns hk _ _

/-- C10: in self-play mode `history` is never reset between the 50
conversations: for `max_turns ≥ 1`, at the start of conversation `j + 1` the
history is still the (at most `max_turns` utterances long, non-empty) window
left by conversation `j` — its last entry is conversation `j`'s final
generated utterance — the new starter is appended after it, and that
carried-over utterance is part of the history passed to the first
`sample_sequence` call of conversation `j + 1`. -/
theorem selfplay_history_carryover (maxTurns : ℤ) (hk : 1 ≤ maxTurns)
    (starterToks : ℕ → List ℕ) (outs : ℕ → ℕ → List ℕ) (j : ℕ) :
    selfplayHistStart maxTurns starterToks outs (j + 1) ≠ [] ∧
    (selfplayHistStart maxTurns starterToks outs (j + 1)).getLast? = some (outs j 12) ∧
    ((selfplayHistStart maxTurns starterToks outs (j + 1)).length : ℤ) ≤ maxTurns ∧
    selfplayFirstCallHistory maxTurns starterToks outs (j + 1) =
      selfplayHistStart maxTurns starterToks outs (j + 1) ++ [starterToks (j + 1)] ∧
    outs j 12 ∈ selfplayFirstCallHistory maxTurns starterToks outs (j + 1) := by
  obtain ⟨t, ht⟩ := selfplayConvEnd_decomp maxTurns hk
    (selfplayHistStart maxTurns starterToks outs j) (starterToks j) (outs j)
  have hstart : selfplayHistStart maxTurns starterToks outs (j + 1) =
      selfplayConvEnd maxTurns (selfplayHistStart maxTurns starterToks outs j)
        (starterToks j) (outs j) := rfl
  refine ⟨?_, ?_, ?_, rfl, ?_⟩
  · rw [hstart, ht]; simp
  · rw [hstart, ht]; exact List.getLast?_concat t
  · rw [hstart, selfplayConvEnd_eq_slice]
    exact sliceFromNeg_length_le maxTurns hk _
  · rw [selfplayFirstCallHistory, hstart, ht]; simp

theorem selfplay_history_carryover_witness :
    (1 : ℤ) ≤ 3 ∧
      [1] ∈ selfplayFirstCallHistory 3 (fun _ => [0]) (fun _ _ => [1]) 1 :=
  ⟨by norm_num,
    (selfplay_history_carryover 3 (by norm_num) (fun _ => [0]) (fun _ _ => [1]) 0).2.2.2.2⟩

/-! ## `build_input_from_segments` theorems -/

lemma personality_foldl_mem (persona : List (List ℤ)) (ptok : ℤ) :
    ∀ (acc : List ℤ) (t : ℤ),
      t ∈ persona.foldl (fun acc sent => acc ++ [ptok] ++ sent) acc →
        t ∈ acc ∨ t = ptok ∨ ∃ sent ∈ persona, t ∈ sent := by
  induction persona with
  | nil => intro acc t h; simp only [List.foldl_nil] at h; exact Or.inl h
  | cons s ss ih =>
    intro acc t h
    simp only [List.foldl_cons] at h
    rcases ih (acc ++ [ptok] ++ s) t h with hacc | hp | ⟨sent, hs1, hs2⟩
    · simp only [List.mem_append, List.mem_singleton] at hacc
      rcases hacc with (hacc | rfl) | hs
      · exact Or.inl hacc
      · exact Or.inr (Or.inl rfl)
      · exact Or.inr (Or.inr ⟨s, List.mem_cons_self _ _, hs⟩)
    · exact Or.inr (Or.inl hp)
    · exact Or.inr (Or.inr ⟨sent, List.mem_cons_of_mem _ hs1, hs2⟩)

lemma enum_snd_mem {α : Type} {l : List α} {p : ℕ × α} (h : p ∈ l.enum) : p.2 ∈ l := by
  rw [List.mem_enum_iff_getElem?] at h
  exact mem_of_getElem?_eq_some h

/-- C9: every instance built by `build_input_from_segments` has encoder-side
`input_ids` and `token_type_ids` of equal length; `input_ids` holds only
persona-sentence and history tokens plus the `persona`/`speaker1`/`speaker2`
marker ids (never anything taken from `reply`: the two encoder-side fields do
not depend on `reply` at all, the commented-out reply segment having been
removed from `sequence`); the reply tokens appear only in the decoder-side
response, which `lm_labels=True` exposes as `lm_labels = [bos] + reply +
([eos] if with_eos else [])`. -/
theorem build_input_invariant (persona history : List (List ℤ)) (reply : List ℤ)
    (bos eos ptok spk1 spk2 langtok : ℤ) (lmFlag withEos : Bool) :
    (build_input_from_segments persona history reply bos eos ptok spk1 spk2 langtok
        lmFlag withEos).input_ids.length =
      (build_input_from_segments persona history reply bos eos ptok spk1 spk2 langtok
        lmFlag withEos).token_type_ids.length ∧
    (∀ t ∈ (build_input_from_segments persona history reply bos eos ptok spk1 spk2
        langtok lmFlag withEos).input_ids,
      t = ptok ∨ t = spk1 ∨ t = spk2 ∨ (∃ sent ∈ persona, t ∈ sent) ∨
        ∃ turn ∈ history, t ∈ turn) ∧
    (∀ reply2,
      (build_input_from_segments persona history reply2 bos eos ptok spk1 spk2 langtok
          lmFlag withEos).input_ids =
        (build_input_from_segments persona history reply bos eos ptok spk1 spk2 langtok
          lmFlag withEos).input_ids ∧
      (build_input_from_segments persona history reply2 bos eos ptok spk1 spk2 langtok
          lmFlag withEos).token_type_ids =
        (build_input_from_segments persona history reply bos eos ptok spk1 spk2 langtok
          lmFlag withEos).token_type_ids) ∧
    (lmFlag = true →
      (build_input_from_segments persona history reply bos eos ptok spk1 spk2 langtok
          lmFlag withEos).lm_labels =
        [bos] ++ reply ++ (if withEos then [eos] else [])) := by
  set personality := persona.foldl (fun acc sent => acc ++ [ptok] ++ sent) [] with hpers
  set L := history.enum.map
    (fun p => [if p.1 % 2 = 1 then spk2 else spk1] ++ p.2) with hL
  have hin : (build_input_from_segments persona history reply bos eos ptok spk1 spk2
      langtok lmFlag withEos).input_ids = personality ++ L.flatten := by
    simp only [build_input_from_segments, List.singleton_append, List.headD_cons,
      List.drop_succ_cons, List.drop_zero, List.flatten_cons, hpers, hL]
  have htt : (build_input_from_segments persona history reply bos eos ptok spk1 spk2
      langtok lmFlag withEos).token_type_ids =
      List.replicate personality.length ptok ++
        (L.enum.map (fun p => List.replicate p.2.length
          (if p.1 % 2 = 1 then spk2 else spk1))).flatten := by
    simp only [build_input_from_segments, List.singleton_append, List.headD_cons,
      List.drop_succ_cons, List.drop_zero, hpers, hL]
  refine ⟨?_, ?_, ?_, ?_⟩
  · rw [hin, htt]
    simp only [List.length_append, List.length_replicate, List.length_flatten,
      List.map_map]
    congr 1
    have h1 : (List.length ∘ fun p : ℕ × List ℤ =>
        List.replicate p.2.length (if p.1 % 2 = 1 then spk2 else spk1)) =
        (fun p : ℕ × List ℤ => p.2.length) := by
      funext p; simp
    rw [h1, show (fun p : ℕ × List ℤ => p.2.length) = List.length ∘ Prod.snd from rfl,
      ← List.map_map, List.enum_map_snd]
  · intro t ht
    rw [hin] at ht
    rcases List.mem_append.mp ht with hp | hf
    · rcases personality_foldl_mem persona ptok [] t hp with h0 | h1 | h2
      · simp at h0
      · exact Or.inl h1
      · exact Or.inr (Or.inr (Or.inr (Or.inl h2)))
    · obtain ⟨s, hs1, hs2⟩ := List.mem_flatten.mp hf
      rw [hL] at hs1
      obtain ⟨p, hp1, hp2⟩ := List.mem_map.mp hs1
      rw [← hp2] at hs2
      rcases List.mem_append.mp hs2 with hsp | hturn
      · rw [List.mem_singleton] at hsp
        subst hsp
        by_cases hpar : p.1 % 2 = 1
        · rw [if_pos hpar]; exact Or.inr (Or.inr (Or.inl rfl))
        · rw [if_neg hpar]; exact Or.inr (Or.inl rfl)
      · exact Or.inr (Or.inr (Or.inr (Or.inr ⟨p.2, enum_snd_mem hp1, hturn⟩)))
  · intro reply2; exact ⟨rfl, rfl⟩
  · intro h
    simp only [build_input_from_segments, h, if_true]

theorem build_input_invariant_witness :
    (build_input_from_segments [[10, 11]] [[20], [21]] [30] 1 2 3 4 5 6 true
        true).input_ids.length =
      (build_input_from_segments [[10, 11]] [[20], [21]] [30] 1 2 3 4 5 6 true
        true).token_type_ids.length ∧
    (build_input_from_segments [[10, 11]] [[20], [21]] [30] 1 2 3 4 5 6 true
        true).lm_labels = [1] ++ [30] ++ (if true then [2] else []) :=
  ⟨(build_input_invariant [[10, 11]] [[20], [21]] [30] 1 2 3 4 5 6 true true).1,
    (build_input_invariant [[10, 11]] [[20], [21]] [30] 1 2 3 4 5 6 true true).2.2.2 rfl⟩

/-! ## `top_filtering` infrastructure -/

lemma topKStage_zero (fv : WithBot ℚ) (l : List (WithBot ℚ)) :
    topKStage 0 fv l = l := by
  simp [topKStage]

lemma topPStage_nonpos (e : WithBot ℚ → ℚ) (top_p : ℚ) (fv : WithBot ℚ)
    (l : List (WithBot ℚ)) (h : ¬ 0 < top_p) : topPStage e top_p fv l = l := by
  rw [topPStage, if_neg h]

lemma thresholdStage_bot (fv : WithBot ℚ) (l : List (WithBot ℚ)) :
    thresholdStage ⊥ fv l = l := by
  have h : ∀ x : WithBot ℚ, (if x < (⊥ : WithBot ℚ) then fv else x) = x :=
    fun x => if_neg (by simp)
  simp only [thresholdStage, h, List.map_id']

lemma topKStage_length (k : ℕ) (fv : WithBot ℚ) (l : List (WithBot ℚ)) :
    (topKStage k fv l).length = l.length := by
  simp only [topKStage]
  split
  · simp
  · rfl

lemma topPStage_length (e : WithBot ℚ → ℚ) (top_p : ℚ) (fv : WithBot ℚ)
    (l : List (WithBot ℚ)) : (topPStage e top_p fv l).length = l.length := by
  simp only [topPStage]
  split
  · simp
  · rfl

lemma thresholdStage_length (t fv : WithBot ℚ) (l : List (WithBot ℚ)) :
    (thresholdStage t fv l).length = l.length := by
  simp [thresholdStage]

/-- Every entry of the top-k stage output is the corresponding input entry or
`filter_value`. -/
lemma topKStage_getElem?_cases (k : ℕ) (fv : WithBot ℚ) (l : List (WithBot ℚ))
    (j : ℕ) (hj : j < l.length) :
    (topKStage k fv l)[j]? = some (l.get ⟨j, hj⟩) ∨ (topKStage k fv l)[j]? = some fv := by
  simp only [topKStage]
  split
  · rw [List.getElem?_map, List.getElem?_eq_getElem hj, Option.map_some']
    split
    · exact Or.inr rfl
    · exact Or.inl rfl
  · exact Or.inl (List.getElem?_eq_getElem hj)

/-- Every element of the top-k stage output is an input element or
`filter_value`. -/
lemma topKStage_mem_cases (k : ℕ) (fv : WithBot ℚ) (l : List (WithBot ℚ))
    {y : WithBot ℚ} (hy : y ∈ topKStage k fv l) : y ∈ l ∨ y = fv := by
  simp only [topKStage] at hy
  split at hy
  · obtain ⟨x, hx, hxy⟩ := List.mem_map.mp hy
    by_cases hlt : x < ((l.mergeSort fun a b => decide (b ≤ a)).drop
        (min k l.length - 1)).headD ⊥
    · rw [if_pos hlt] at hxy; exact Or.inr hxy.symm
    · rw [if_neg hlt] at hxy; exact Or.inl (hxy ▸ hx)
  · exact Or.inl hy

/-- The `top_k`-th largest value used by the top-k stage is an element of the
input (when the stage is active). -/
lemma topKStage_kth_mem (k : ℕ) (l : List (WithBot ℚ)) (hk : 0 < min k l.length) :
    ((l.mergeSort fun a b => decide (b ≤ a)).drop (min k l.length - 1)).headD ⊥ ∈ l := by
  have hperm : (l.mergeSort fun a b => decide (b ≤ a)).Perm l := List.mergeSort_perm l _
  have hlen : (l.mergeSort fun a b => decide (b ≤ a)).length = l.length := hperm.length_eq
  have hlt : min k l.length - 1 < (l.mergeSort fun a b => decide (b ≤ a)).length := by
    rw [hlen]; omega
  have hne : (l.mergeSort fun a b => decide (b ≤ a)).drop (min k l.length - 1) ≠ [] := by
    intro hcon
    have := congrArg List.length hcon
    rw [List.length_drop] at this
    simp at this
    omega
  obtain ⟨x, xs, hx⟩ := List.exists_cons_of_ne_nil hne
  have hmem : x ∈ (l.mergeSort fun a b => decide (b ≤ a)).drop (min k l.length - 1) := by
    rw [hx]; exact List.mem_cons_self _ _
  rw [hx, List.headD_cons]
  exact hperm.mem_iff.mp (List.mem_of_mem_drop hmem)

/-- The top-k stage never filters an index holding a maximal logit. -/
lemma topKStage_keeps_max (k : ℕ) (l : List (WithBot ℚ)) (i : ℕ)
    (hi : i < l.length) (hmax : ∀ x ∈ l, x ≤ l.get ⟨i, hi⟩) :
    (topKStage k ⊥ l)[i]? = some (l.get ⟨i, hi⟩) := by
  simp only [List.get_eq_getElem] at hmax ⊢
  simp only [topKStage]
  split
  · rename_i hk
    rw [List.getElem?_map, List.getElem?_eq_getElem hi, Option.map_some']
    rw [if_neg (not_lt.mpr (hmax _ (topKStage_kth_mem k l hk)))]
  · exact List.getElem?_eq_getElem hi

/-- A non-empty list has an index realising its maximum. -/
lemma exists_max_index {α : Type} [LinearOrder α] :
    ∀ (l : List α), l ≠ [] →
      ∃ i, ∃ hi : i < l.length, ∀ x ∈ l, x ≤ l.get ⟨i, hi⟩ := by
  intro l
  induction l with
  | nil => intro h; exact absurd rfl h
  | cons a t ih =>
    intro _
    by_cases ht : t = []
    · subst ht
      exact ⟨0, by simp, by simp⟩
    · obtain ⟨j, hj, hmax⟩ := ih ht
      by_cases hle : a ≤ t.get ⟨j, hj⟩
      · refine ⟨j + 1, by simpa using Nat.succ_lt_succ hj, ?_⟩
        intro x hx
        rcases List.mem_cons.mp hx with rfl | hxt
        · simpa using hle
        · simpa using hmax x hxt
      · refine ⟨0, by simp, ?_⟩
        intro x hx
        rcases List.mem_cons.mp hx with rfl | hxt
        · simp
        · simp only [List.get]
          exact le_of_lt (lt_of_le_of_lt (hmax x hxt) (not_le.mp hle))

/-! Named components of the nucleus stage (re-groupings of the `let`-bound
intermediates of `topPStage`, for stating lemmas about them). -/

/-- `torch.sort(logits, descending=True)`: the sorted index/value pairs. -/
def tpSorted (l : List (WithBot ℚ)) : List (ℕ × WithBot ℚ) :=
  sortPairsDesc l.enum

/-- The `sorted_indices` component. -/
def tpSidx (l : List (WithBot ℚ)) : List ℕ :=
  (tpSorted l).map Prod.fst

/-- The `sorted_logits` component. -/
def tpSlg (l : List (WithBot ℚ)) : List (WithBot ℚ) :=
  (tpSorted l).map Prod.snd

/-- The `cumulative_probabilities` component. -/
def tpCum (e : WithBot ℚ → ℚ) (l : List (WithBot ℚ)) : List ℚ :=
  cumsum (softmax e (tpSlg l))

/-- The shifted removal mask over sorted positions. -/
def tpShifted (e : WithBot ℚ → ℚ) (top_p : ℚ) (l : List (WithBot ℚ)) : List Bool :=
  false :: ((tpCum e l).map (fun c => decide (top_p < c))).dropLast

/-- The `indices_to_remove` component (original indices). -/
def tpRemove (e : WithBot ℚ → ℚ) (top_p : ℚ) (l : List (WithBot ℚ)) : List ℕ :=
  ((tpSidx l).zip (tpShifted e top_p l)).filterMap
    (fun p => if p.2 then some p.1 else none)

lemma topPStage_pos (e : WithBot ℚ → ℚ) (top_p : ℚ) (fv : WithBot ℚ)
    (l : List (WithBot ℚ)) (h : 0 < top_p) :
    topPStage e top_p fv l =
      l.enum.map (fun p => if p.1 ∈ tpRemove e top_p l then fv else p.2) := by
  rw [topPStage, if_pos h]
  rfl

lemma tpSorted_perm (l : List (WithBot ℚ)) : (tpSorted l).Perm l.enum :=
  List.mergeSort_perm l.enum _

lemma tpSorted_length (l : List (WithBot ℚ)) : (tpSorted l).length = l.length := by
  rw [(tpSorted_perm l).length_eq, List.enum_length]

lemma tpSidx_length (l : List (WithBot ℚ)) : (tpSidx l).length = l.length := by
  rw [tpSidx, List.length_map, tpSorted_length]

lemma tpSlg_length (l : List (WithBot ℚ)) : (tpSlg l).length = l.length := by
  rw [tpSlg, List.length_map, tpSorted_length]

/-- The sorted pairs are pairwise descending in their logit component. -/
lemma tpSorted_pairwise (l : List (WithBot ℚ)) :
    (tpSorted l).Pairwise (fun a b => b.2 ≤ a.2) := by
  have h := @List.sorted_mergeSort (ℕ × WithBot ℚ)
    (fun a b => decide (b.2 ≤ a.2))
    (fun a b c hab hbc => by
      simp only [decide_eq_true_eq] at hab hbc ⊢
      exact le_trans hbc hab)
    (fun a b => by
      simp only [Bool.or_eq_true, decide_eq_true_eq]
      exact le_total b.2 a.2)
    l.enum
  exact h.imp (fun hab => by simpa using hab)

/-- Each sorted pair is an (index, value) pair of the input list. -/
lemma tpSorted_pair_spec (l : List (WithBot ℚ)) {p : ℕ × WithBot ℚ}
    (hp : p ∈ tpSorted l) : l[p.1]? = some p.2 := by
  have := (tpSorted_perm l).mem_iff.mp hp
  exact List.mem_enum_iff_getElem?.mp this

/-- `sorted_indices` is a permutation of `range n`, hence duplicate-free. -/
lemma tpSidx_perm_range (l : List (WithBot ℚ)) :
    (tpSidx l).Perm (List.range l.length) := by
  have := (tpSorted_perm l).map Prod.fst
  rwa [List.enum_map_fst] at this

lemma tpSidx_nodup (l : List (WithBot ℚ)) : (tpSidx l).Nodup :=
  (tpSidx_perm_range l).nodup_iff.mpr (List.nodup_range _)

lemma tpSidx_mem (l : List (WithBot ℚ)) (i : ℕ) (hi : i < l.length) :
    i ∈ tpSidx l :=
  (tpSidx_perm_range l).mem_iff.mpr (List.mem_range.mpr hi)

/-- Sorted position `t` carries original index `(tpSidx l).get t` and the
value of the input list at that index. -/
lemma tpSlg_getElem_eq (l : List (WithBot ℚ)) (t : ℕ) (ht : t < l.length) :
    l[((tpSidx l).get ⟨t, by rw [tpSidx_length]; exact ht⟩)]? =
      some ((tpSlg l).get ⟨t, by rw [tpSlg_length]; exact ht⟩) := by
  have hts : t < (tpSorted l).length := by rw [tpSorted_length]; exact ht
  have hp : (tpSorted l).get ⟨t, hts⟩ ∈ tpSorted l := List.get_mem _ t hts
  have hspec := tpSorted_pair_spec l hp
  simp only [List.get_eq_getElem] at hspec ⊢
  simp only [tpSidx, tpSlg, List.getElem_map]
  exact hspec

lemma cumsumFrom_length (acc : ℚ) : ∀ l : List ℚ, (cumsumFrom acc l).length = l.length
  | [] => rfl
  | x :: xs => by
    rw [cumsumFrom, List.length_cons, List.length_cons, cumsumFrom_length]

lemma cumsum_length (l : List ℚ) : (cumsum l).length = l.length :=
  cumsumFrom_length 0 l

lemma softmax_length (e : WithBot ℚ → ℚ) (l : List (WithBot ℚ)) :
    (softmax e l).length = l.length := by
  rw [softmax, List.length_map]

lemma tpCum_length (e : WithBot ℚ → ℚ) (l : List (WithBot ℚ)) :
    (tpCum e l).length = l.length := by
  rw [tpCum, cumsum_length, softmax_length, tpSlg_length]

lemma tpShifted_length (e : WithBot ℚ → ℚ) (top_p : ℚ) (l : List (WithBot ℚ))
    (hne : l ≠ []) : (tpShifted e top_p l).length = l.length := by
  have hn : 0 < l.length := List.length_pos.mpr hne
  rw [tpShifted, List.length_cons, List.length_dropLast, List.length_map,
    tpCum_length]
  omega

lemma tpShifted_head (e : WithBot ℚ → ℚ) (top_p : ℚ) (l : List (WithBot ℚ))
    (h0 : 0 < (tpShifted e top_p l).length) :
    (tpShifted e top_p l).get ⟨0, h0⟩ = false := by
  rfl

/-- Membership in `indices_to_remove`: original index `i` is removed exactly
when some sorted position carrying `i` has its shifted mask bit set. -/
lemma tpRemove_mem_iff (e : WithBot ℚ → ℚ) (top_p : ℚ) (l : List (WithBot ℚ))
    (hne : l ≠ []) (i : ℕ) :
    i ∈ tpRemove e top_p l ↔
      ∃ t, ∃ ht : t < l.length,
        (tpSidx l).get ⟨t, by rw [tpSidx_length]; exact ht⟩ = i ∧
        (tpShifted e top_p l).get ⟨t, by rw [tpShifted_length e top_p l hne]; exact ht⟩
          = true := by
  have hzlen : ((tpSidx l).zip (tpShifted e top_p l)).length = l.length := by
    rw [List.length_zip, tpSidx_length, tpShifted_length e top_p l hne, min_self]
  constructor
  · intro h
    obtain ⟨p, hp, hcond⟩ := List.mem_filterMap.mp h
    have hp2 : p.2 = true ∧ p.1 = i := by
      by_cases hb : p.2 = true
      · rw [if_pos hb] at hcond
        exact ⟨hb, Option.some.inj hcond⟩
      · rw [if_neg hb] at hcond
        exact Option.noConfusion hcond
    obtain ⟨t, htz, hget⟩ := List.mem_iff_getElem.mp hp
    have ht : t < l.length := by rw [← hzlen]; exact htz
    have hts : t < (tpSidx l).length := by rw [tpSidx_length]; exact ht
    have htsh : t < (tpShifted e top_p l).length := by
      rw [tpShifted_length e top_p l hne]; exact ht
    have hz := @List.getElem_zip ℕ Bool (tpSidx l) (tpShifted e top_p l) t htz
    rw [hget] at hz
    refine ⟨t, ht, ?_, ?_⟩
    · simp only [List.get_eq_getElem]
      have h1 : (tpSidx l)[t] = p.1 := (congrArg Prod.fst hz).symm
      exact h1.trans hp2.2
    · simp only [List.get_eq_getElem]
      have h2 : (tpShifted e top_p l)[t] = p.2 := (congrArg Prod.snd hz).symm
      exact h2.trans hp2.1
  · rintro ⟨t, ht, hidx, hsh⟩
    have htz : t < ((tpSidx l).zip (tpShifted e top_p l)).length := by
      rw [hzlen]; exact ht
    refine List.mem_filterMap.mpr
      ⟨((tpSidx l).zip (tpShifted e top_p l))[t], List.getElem_mem htz, ?_⟩
    rw [List.getElem_zip]
    simp only [List.get_eq_getElem] at hidx hsh
    rw [hsh, hidx]
    rfl

/-- The nucleus stage always keeps an index realising the maximum logit:
sorted position 0 is never masked (`sorted_indices_to_remove[..., 0] = 0`). -/
lemma topPStage_keeps_top (e : WithBot ℚ → ℚ) (top_p : ℚ) (fv : WithBot ℚ)
    (l : List (WithBot ℚ)) (hne : l ≠ []) :
    ∃ i, ∃ hi : i < l.length,
      (∀ x ∈ l, x ≤ l.get ⟨i, hi⟩) ∧
      (topPStage e top_p fv l)[i]? = some (l.get ⟨i, hi⟩) := by
  by_cases htp : 0 < top_p
  · have hts0 : 0 < (tpSorted l).length := by
      rw [tpSorted_length]; exact List.length_pos.mpr hne
    obtain ⟨hd, tl, hcons⟩ := List.exists_cons_of_ne_nil
      (List.length_pos.mp hts0 : tpSorted l ≠ [])
    have hhd : hd ∈ tpSorted l := by rw [hcons]; exact List.mem_cons_self _ _
    have hspec := tpSorted_pair_spec l hhd
    obtain ⟨hi0, hval⟩ := List.getElem?_eq_some.mp hspec
    have hmax : ∀ x ∈ l, x ≤ hd.2 := by
      intro x hx
      have hxs : x ∈ tpSlg l := by
        have hperm : (tpSlg l).Perm l := by
          have := (tpSorted_perm l).map Prod.snd
          rwa [List.enum_map_snd] at this
        exact hperm.mem_iff.mpr hx
      simp only [tpSlg, hcons, List.map_cons, List.mem_cons] at hxs
      rcases hxs with rfl | hxtl
      · exact le_refl _
      · obtain ⟨q, hq, hq2⟩ := List.mem_map.mp hxtl
        have hpw := (List.pairwise_cons.mp (hcons ▸ tpSorted_pairwise l)).1
        exact hq2 ▸ hpw q hq
    have hnotrem : hd.1 ∉ tpRemove e top_p l := by
      intro hmem
      obtain ⟨t, ht, hidx, hsh⟩ := (tpRemove_mem_iff e top_p l hne hd.1).mp hmem
      have ht0 : t = 0 := by
        have hs0 : (0 : ℕ) < (tpSidx l).length := by
          rw [tpSidx_length]; exact List.length_pos.mpr hne
        have hsidx0 : (tpSidx l).get ⟨0, hs0⟩ = hd.1 := by
          simp only [tpSidx, hcons, List.get_eq_getElem, List.getElem_map]
          rw [List.getElem_cons_zero]
        have hnd := tpSidx_nodup l
        have ht' : t < (tpSidx l).length := by rw [tpSidx_length]; exact ht
        simp only [List.get_eq_getElem] at hidx hsidx0
        exact (hnd.getElem_inj_iff).mp (hsidx0 ▸ hidx)
      subst ht0
      rw [tpShifted_head] at hsh
      exact Bool.noConfusion hsh
    refine ⟨hd.1, hi0, ?_, ?_⟩
    · intro x hx
      simp only [List.get_eq_getElem, hval]
      exact hmax x hx
    · rw [topPStage_pos e top_p fv l htp, List.getElem?_map,
        List.getElem?_eq_getElem (by rw [List.enum_length]; exact hi0), Option.map_some']
      rw [List.getElem_enum]
      simp only [hnotrem, if_false, List.get_eq_getElem, hval]
  · rw [topPStage_nonpos e top_p fv l htp]
    obtain ⟨i, hi, hmax⟩ := exists_max_index l hne
    refine ⟨i, hi, hmax, ?_⟩
    simp only [List.get_eq_getElem]
    exact List.getElem?_eq_getElem hi


/-- A finite float logits vector embedded into `WithBot ℚ` (no entry is
`-inf`): the form in which `sample_sequence` hands the model's final-position
logits to `top_filtering`. -/
def finiteLogits (logits : List ℚ) : List (WithBot ℚ) :=
  logits.map (fun (q : ℚ) => (q : WithBot ℚ))

lemma finiteLogits_length (logits : List ℚ) :
    (finiteLogits logits).length = logits.length :=
  List.length_map _ _

lemma finiteLogits_ne_nil {logits : List ℚ} (hne : logits ≠ []) :
    finiteLogits logits ≠ [] := by
  intro hcon
  exact hne (List.map_eq_nil_iff.mp hcon)

lemma finiteLogits_getElem (logits : List ℚ) (i : ℕ) (hi : i < logits.length) :
    (finiteLogits logits).get ⟨i, by rw [finiteLogits_length]; exact hi⟩ =
      ((logits.get ⟨i, hi⟩ : ℚ) : WithBot ℚ) := by
  simp only [finiteLogits, List.get_eq_getElem, List.getElem_map]

lemma finiteLogits_mem {logits : List ℚ} {x : WithBot ℚ}
    (hx : x ∈ finiteLogits logits) : ∃ q ∈ logits, x = (q : WithBot ℚ) := by
  obtain ⟨q, hq, hq2⟩ := List.mem_map.mp hx
  exact ⟨q, hq, hq2.symm⟩

lemma finiteLogits_mem_of_mem {logits : List ℚ} {q : ℚ} (hq : q ∈ logits) :
    (q : WithBot ℚ) ∈ finiteLogits logits :=
  List.mem_map_of_mem _ hq

/-- C8: for every non-empty finite logits vector and every `top_k`, `top_p`
(with the default `threshold`/`filter_value` of `-inf`), `top_filtering`
keeps at least one index realising the maximum logit, with its value intact:
the top-k stage never filters a maximal entry, the nucleus stage never masks
sorted position 0, and nothing lies below the `-inf` threshold — so the
post-filter distribution sampled in `sample_sequence` is never all `-inf`. -/
theorem top_filtering_keeps_max_logit (logits : List ℚ) (hne : logits ≠ [])
    (e : WithBot ℚ → ℚ) (top_k : ℕ) (top_p : ℚ) :
    ∃ i, ∃ hi : i < logits.length,
      (∀ q ∈ logits, q ≤ logits.get ⟨i, hi⟩) ∧
      (top_filtering e top_k top_p ⊥ ⊥ (finiteLogits logits))[i]? =
        some ((logits.get ⟨i, hi⟩ : ℚ) : WithBot ℚ) := by
  have hlwne : finiteLogits logits ≠ [] := finiteLogits_ne_nil hne
  have hlwlen : (finiteLogits logits).length = logits.length := finiteLogits_length _
  obtain ⟨im, him, hmax⟩ := exists_max_index (finiteLogits logits) hlwne
  set M := (finiteLogits logits).get ⟨im, him⟩ with hM
  set l2 := topKStage top_k ⊥ (finiteLogits logits) with hl2
  have hlen2 : l2.length = (finiteLogits logits).length := topKStage_length _ _ _
  have hl2ne : l2 ≠ [] := by
    rw [← List.length_pos, hlen2, List.length_pos]
    exact hlwne
  have hMkeep : l2[im]? = some M :=
    topKStage_keeps_max top_k (finiteLogits logits) im him hmax
  have hMmem : M ∈ l2 := mem_of_getElem?_eq_some hMkeep
  have hle : ∀ y ∈ l2, y ≤ M := by
    intro y hy
    rcases topKStage_mem_cases top_k ⊥ (finiteLogits logits) hy with hyl | rfl
    · exact hmax y hyl
    · exact bot_le
  obtain ⟨i0, hi0, hmax2, hkeep⟩ := topPStage_keeps_top e top_p ⊥ l2 hl2ne
  have hv0M : l2.get ⟨i0, hi0⟩ = M :=
    le_antisymm (hle _ (List.get_mem l2 i0 hi0)) (hmax2 M hMmem)
  have hi0w : i0 < (finiteLogits logits).length := by rw [← hlen2]; exact hi0
  have hMcoe : ∃ q : ℚ, M = (q : WithBot ℚ) := by
    obtain ⟨q, -, hq⟩ := finiteLogits_mem (hM ▸ List.get_mem (finiteLogits logits) im him)
    exact ⟨q, hq⟩
  have hlwi0 : (finiteLogits logits).get ⟨i0, hi0w⟩ = M := by
    have h2 : l2[i0]? = some (l2.get ⟨i0, hi0⟩) := by
      simp only [List.get_eq_getElem]
      exact List.getElem?_eq_getElem hi0
    rcases topKStage_getElem?_cases top_k ⊥ (finiteLogits logits) i0 hi0w with hc | hc
    · rw [← hl2] at hc
      rw [hc] at h2
      exact (Option.some.inj h2).trans hv0M
    · rw [← hl2] at hc
      rw [hc] at h2
      have hbot : (⊥ : WithBot ℚ) = M := (Option.some.inj h2).trans hv0M
      obtain ⟨q, hq⟩ := hMcoe
      rw [hq] at hbot
      exact absurd hbot (by simp)
  have hi0l : i0 < logits.length := by rw [← hlwlen]; exact hi0w
  have hcoei0 : ((logits.get ⟨i0, hi0l⟩ : ℚ) : WithBot ℚ) = M :=
    (finiteLogits_getElem logits i0 hi0l).symm.trans hlwi0
  refine ⟨i0, hi0l, ?_, ?_⟩
  · intro q hq
    have hqle : (q : WithBot ℚ) ≤ M := hmax _ (finiteLogits_mem_of_mem hq)
    rw [← hcoei0] at hqle
    exact_mod_cast hqle
  · rw [top_filtering, thresholdStage_bot, ← hl2, hkeep, hv0M, hcoei0]

theorem top_filtering_keeps_max_logit_witness :
    ([1, 2] : List ℚ) ≠ [] ∧
      ∃ i, ∃ hi : i < ([1, 2] : List ℚ).length,
        (∀ q ∈ ([1, 2] : List ℚ), q ≤ ([1, 2] : List ℚ).get ⟨i, hi⟩) ∧
        (top_filtering (fun _ => 1) 1 (9 / 10) ⊥ ⊥ (finiteLogits [1, 2]))[i]? =
          some ((([1, 2] : List ℚ).get ⟨i, hi⟩ : ℚ) : WithBot ℚ) :=
  ⟨by decide,
    top_filtering_keeps_max_logit [1, 2] (by decide) (fun _ => 1) 1 (9 / 10)⟩

/-! Arithmetic facts about `cumsum`, `softmax` and prefix sums. -/

lemma cumsumFrom_getElem? :
    ∀ (l : List ℚ) (acc : ℚ) (t : ℕ), t < l.length →
      (cumsumFrom acc l)[t]? = some (acc + (l.take (t + 1)).sum) := by
  intro l
  induction l with
  | nil => intro acc t ht; simp at ht
  | cons x xs ih =>
    intro acc t ht
    rw [cumsumFrom]
    cases t with
    | zero =>
      rw [List.getElem?_cons_zero]
      norm_num
    | succ t =>
      have ht' : t < xs.length := by simpa using ht
      rw [List.getElem?_cons_succ, ih (acc + x) t ht']
      simp only [List.take_succ_cons, List.sum_cons]
      ring_nf

lemma cumsum_getElem? (l : List ℚ) (t : ℕ) (ht : t < l.length) :
    (cumsum l)[t]? = some ((l.take (t + 1)).sum) := by
  rw [cumsum, cumsumFrom_getElem? l 0 t ht, zero_add]

lemma cumsum_getD (l : List ℚ) (t : ℕ) (ht : t < l.length) :
    (cumsum l).getD t 0 = (l.take (t + 1)).sum := by
  rw [List.getD_eq_getElem?_getD, cumsum_getElem? l t ht, Option.getD_some]

lemma sum_map_div (c : ℚ) : ∀ l : List ℚ, (l.map (fun x => x / c)).sum = l.sum / c
  | [] => by simp
  | x :: xs => by
    rw [List.map_cons, List.sum_cons, List.sum_cons, sum_map_div c xs, add_div]

lemma softmax_sum_eq_one (e : WithBot ℚ → ℚ) (l : List (WithBot ℚ)) (hne : l ≠ [])
    (hpos : ∀ x ∈ l, 0 < e x) : (softmax e l).sum = 1 := by
  have hW : 0 < softmaxSum e l := by
    apply List.sum_pos
    · intro x hx
      obtain ⟨y, hy, hxy⟩ := List.mem_map.mp hx
      exact hxy ▸ hpos y hy
    · intro hcon
      exact hne (List.map_eq_nil_iff.mp hcon)
  have : softmax e l = (l.map e).map (fun x => x / softmaxSum e l) := by
    rw [softmax, List.map_map]
    rfl
  rw [this, sum_map_div, ← softmaxSum]
  exact div_self (ne_of_gt hW)

lemma take_sum_le_take_sum (l : List ℚ) (hnn : ∀ x ∈ l, 0 ≤ x) {s u : ℕ}
    (hsu : s ≤ u) : (l.take s).sum ≤ (l.take u).sum := by
  induction u with
  | zero =>
    obtain rfl : s = 0 := Nat.le_zero.mp hsu
    exact le_refl _
  | succ v ih =>
    rcases Nat.eq_or_lt_of_le hsu with rfl | hlt
    · exact le_refl _
    · have hs : s ≤ v := by omega
      by_cases hv : v < l.length
      · calc (l.take s).sum ≤ (l.take v).sum := ih hs
          _ ≤ (l.take (v + 1)).sum := by
            rw [List.sum_take_succ l v hv]
            have := hnn _ (List.getElem_mem hv)
            linarith
      · have heq : l.take (v + 1) = l.take v := by
          rw [List.take_of_length_le (by omega), List.take_of_length_le (by omega)]
        rw [heq]
        exact ih hs

lemma sum_range_getD_eq_take_sum (l : List ℚ) :
    ∀ s, s ≤ l.length → (∑ t ∈ Finset.range s, l.getD t 0) = (l.take s).sum := by
  intro s
  induction s with
  | zero => intro _; simp
  | succ v ih =>
    intro hv
    rw [Finset.sum_range_succ, ih (by omega), List.sum_take_succ l v (by omega),
      List.getD_eq_getElem l 0 (by omega)]

/-- A set of positions has no more mass than the same number of leading
positions, when position weights are descending and non-negative. -/
lemma sum_le_sum_range_card (n : ℕ) (g : ℕ → ℚ)
    (hmono : ∀ t u, t ≤ u → u < n → g u ≤ g t) :
    ∀ T : Finset ℕ, T ⊆ Finset.range n →
      (∑ t ∈ T, g t) ≤ ∑ t ∈ Finset.range T.card, g t := by
  intro T
  induction T using Finset.strongInduction with
  | _ T ih =>
    intro hTsub
    rcases T.eq_empty_or_nonempty with rfl | hne
    · simp
    · have hMT : T.max' hne ∈ T := T.max'_mem hne
      have hMn : T.max' hne < n := Finset.mem_range.mp (hTsub hMT)
      have hcardM : T.card ≤ T.max' hne + 1 := by
        have hss : T ⊆ Finset.range (T.max' hne + 1) := by
          intro x hx
          have := Finset.le_max' T x hx
          exact Finset.mem_range.mpr (by omega)
        calc T.card ≤ (Finset.range (T.max' hne + 1)).card := Finset.card_le_card hss
          _ = T.max' hne + 1 := Finset.card_range _
      have hTE : T.erase (T.max' hne) ⊂ T := Finset.erase_ssubset hMT
      have hsub2 : T.erase (T.max' hne) ⊆ Finset.range n :=
        fun x hx => hTsub (Finset.mem_of_mem_erase hx)
      have hstep := ih (T.erase (T.max' hne)) hTE hsub2
      have hcard : (T.erase (T.max' hne)).card = T.card - 1 :=
        Finset.card_erase_of_mem hMT
      have hcard1 : 1 ≤ T.card := Finset.card_pos.mpr hne
      rw [← Finset.sum_erase_add T g hMT]
      have hr : T.card = (T.card - 1) + 1 := by omega
      rw [hr, Finset.sum_range_succ]
      have hgM : g (T.max' hne) ≤ g (T.card - 1) :=
        hmono (T.card - 1) (T.max' hne) (by omega) hMn
      rw [hcard] at hstep
      exact add_le_add hstep hgM

lemma tpSlg_perm (l : List (WithBot ℚ)) : (tpSlg l).Perm l := by
  have := (tpSorted_perm l).map Prod.snd
  rwa [List.enum_map_snd] at this

lemma softmaxSum_slg_eq (e : WithBot ℚ → ℚ) (l : List (WithBot ℚ)) :
    softmaxSum e (tpSlg l) = softmaxSum e l :=
  ((tpSlg_perm l).map e).sum_eq

lemma softmaxSum_pos (e : WithBot ℚ → ℚ) (l : List (WithBot ℚ)) (hne : l ≠ [])
    (hpos : ∀ x ∈ l, 0 < e x) : 0 < softmaxSum e l := by
  apply List.sum_pos
  · intro x hx
    obtain ⟨y, hy, hxy⟩ := List.mem_map.mp hx
    exact hxy ▸ hpos y hy
  · intro hcon
    exact hne (List.map_eq_nil_iff.mp hcon)

/-- Value of the sorted softmax at sorted position `t`. -/
lemma softmax_slg_getD (e : WithBot ℚ → ℚ) (l : List (WithBot ℚ)) (t : ℕ)
    (ht : t < l.length) :
    (softmax e (tpSlg l)).getD t 0 =
      e ((tpSlg l).get ⟨t, by rw [tpSlg_length]; exact ht⟩) / softmaxSum e l := by
  have hts : t < (tpSlg l).length := by rw [tpSlg_length]; exact ht
  have hlen : t < (softmax e (tpSlg l)).length := by
    rw [softmax_length, tpSlg_length]; exact ht
  rw [List.getD_eq_getElem _ 0 hlen]
  simp only [softmax, List.getElem_map, List.get_eq_getElem, softmaxSum_slg_eq]

/-- The softmax probability of the token at sorted position `t` is the sorted
softmax value at `t`. -/
lemma tokenProb_at_sidx (e : WithBot ℚ → ℚ) (l : List (WithBot ℚ)) (t : ℕ)
    (ht : t < l.length) :
    tokenProb e l ((tpSidx l).get ⟨t, by rw [tpSidx_length]; exact ht⟩) =
      (softmax e (tpSlg l)).getD t 0 := by
  rw [softmax_slg_getD e l t ht, tokenProb]
  congr 1
  have hspec := tpSlg_getElem_eq l t ht
  rw [List.getD_eq_getElem?_getD, hspec, Option.getD_some]

lemma tpSlg_coe (l : List (WithBot ℚ)) (hcoe : ∀ x ∈ l, ∃ q : ℚ, x = (q : WithBot ℚ)) :
    ∀ x ∈ tpSlg l, ∃ q : ℚ, x = (q : WithBot ℚ) :=
  fun x hx => hcoe x ((tpSlg_perm l).mem_iff.mp hx)

lemma softmax_slg_pos (e : WithBot ℚ → ℚ) (l : List (WithBot ℚ)) (hne : l ≠ [])
    (hcoe : ∀ x ∈ l, ∃ q : ℚ, x = (q : WithBot ℚ))
    (hepos : ∀ q : ℚ, 0 < e (q : WithBot ℚ)) (t : ℕ) (ht : t < l.length) :
    0 < (softmax e (tpSlg l)).getD t 0 := by
  rw [softmax_slg_getD e l t ht]
  have hmem : (tpSlg l).get ⟨t, by rw [tpSlg_length]; exact ht⟩ ∈ tpSlg l :=
    List.get_mem _ t _
  obtain ⟨q, hq⟩ := tpSlg_coe l hcoe _ hmem
  rw [hq]
  exact div_pos (hepos q)
    (softmaxSum_pos e l hne (fun x hx => by
      obtain ⟨r, hr⟩ := hcoe x hx
      rw [hr]; exact hepos r))

/-- The sorted softmax values are descending in the sorted position. -/
lemma softmax_slg_antitone (e : WithBot ℚ → ℚ) (l : List (WithBot ℚ)) (hne : l ≠ [])
    (hcoe : ∀ x ∈ l, ∃ q : ℚ, x = (q : WithBot ℚ))
    (hepos : ∀ q : ℚ, 0 < e (q : WithBot ℚ))
    (hemono : ∀ q r : ℚ, q ≤ r → e (q : WithBot ℚ) ≤ e (r : WithBot ℚ))
    (t u : ℕ) (htu : t ≤ u) (hu : u < l.length) :
    (softmax e (tpSlg l)).getD u 0 ≤ (softmax e (tpSlg l)).getD t 0 := by
  have ht : t < l.length := lt_of_le_of_lt htu hu
  rw [softmax_slg_getD e l u hu, softmax_slg_getD e l t ht]
  have hW : 0 < softmaxSum e l :=
    softmaxSum_pos e l hne (fun x hx => by
      obtain ⟨r, hr⟩ := hcoe x hx
      rw [hr]; exact hepos r)
  rw [div_le_div_iff_of_pos_right hW]
  have hslgle : (tpSlg l).get ⟨u, by rw [tpSlg_length]; exact hu⟩ ≤
      (tpSlg l).get ⟨t, by rw [tpSlg_length]; exact ht⟩ := by
    rcases Nat.eq_or_lt_of_le htu with rfl | hlt
    · exact le_refl _
    · have hpw := tpSorted_pairwise l
      rw [List.pairwise_iff_get] at hpw
      have := hpw ⟨t, by rw [tpSorted_length]; exact ht⟩
        ⟨u, by rw [tpSorted_length]; exact hu⟩ (by simpa using hlt)
      simp only [tpSlg, List.get_eq_getElem, List.getElem_map]
      exact this
  obtain ⟨qu, hqu⟩ := tpSlg_coe l hcoe _ (List.get_mem _ u _)
  obtain ⟨qt, hqt⟩ := tpSlg_coe l hcoe _ (List.get_mem _ t _)
  rw [hqu, hqt] at hslgle ⊢
  exact hemono qu qt (by exact_mod_cast hslgle)

/-- Full characterisation of the nucleus stage on a finite (no `-inf`) logits
list for `0 < top_p < 1`: the kept indices form a set of
highest-softmax-probability tokens whose mass exceeds `top_p`, of minimal
cardinality among all index sets whose mass exceeds `top_p`; every other
index is set to `filter_value = ⊥`. -/
lemma topPStage_nucleus_spec (e : WithBot ℚ → ℚ) (l : List (WithBot ℚ)) (hne : l ≠ [])
    (hcoe : ∀ x ∈ l, ∃ q : ℚ, x = (q : WithBot ℚ))
    (hepos : ∀ q : ℚ, 0 < e (q : WithBot ℚ))
    (hemono : ∀ q r : ℚ, q ≤ r → e (q : WithBot ℚ) ≤ e (r : WithBot ℚ))
    (top_p : ℚ) (htp0 : 0 < top_p) (htp1 : top_p < 1) :
    ∃ K : Finset ℕ,
      K ⊆ Finset.range l.length ∧
      (∀ i, ∀ hi : i < l.length,
        (i ∈ K → (topPStage e top_p ⊥ l)[i]? = some (l.get ⟨i, hi⟩)) ∧
        (i ∉ K → (topPStage e top_p ⊥ l)[i]? = some ⊥)) ∧
      top_p < massOf e l K ∧
      (∀ S : Finset ℕ, S ⊆ Finset.range l.length → top_p < massOf e l S →
        K.card ≤ S.card) ∧
      (∀ i ∈ K, ∀ j, j < l.length → j ∉ K → tokenProb e l j ≤ tokenProb e l i) := by
  have hn : 0 < l.length := List.length_pos.mpr hne
  have hplen : (softmax e (tpSlg l)).length = l.length := by
    rw [softmax_length, tpSlg_length]
  have hpos : ∀ t, t < l.length → 0 < (softmax e (tpSlg l)).getD t 0 :=
    fun t ht => softmax_slg_pos e l hne hcoe hepos t ht
  have hanti : ∀ t u, t ≤ u → u < l.length →
      (softmax e (tpSlg l)).getD u 0 ≤ (softmax e (tpSlg l)).getD t 0 :=
    fun t u htu hu => softmax_slg_antitone e l hne hcoe hepos hemono t u htu hu
  have hnn : ∀ x ∈ softmax e (tpSlg l), 0 ≤ x := by
    intro x hx
    obtain ⟨t, ht, hget⟩ := List.mem_iff_getElem.mp hx
    have ht' : t < l.length := by rw [← hplen]; exact ht
    have : (softmax e (tpSlg l)).getD t 0 = x := by
      rw [List.getD_eq_getElem _ 0 ht, hget]
    exact this ▸ le_of_lt (hpos t ht')
  have hslgne : tpSlg l ≠ [] := by
    rw [← List.length_pos, tpSlg_length]
    exact hn
  have hsum1 : (softmax e (tpSlg l)).sum = 1 := by
    apply softmax_sum_eq_one e (tpSlg l) hslgne
    intro x hx
    obtain ⟨q, hq⟩ := tpSlg_coe l hcoe x hx
    rw [hq]
    exact hepos q
  have hcumgetD : ∀ t, t < l.length →
      (tpCum e l).getD t 0 = ((softmax e (tpSlg l)).take (t + 1)).sum := by
    intro t ht
    rw [tpCum, cumsum_getD _ t (by rw [hplen]; exact ht)]
  have hcummono : ∀ t u, t ≤ u → u < l.length →
      (tpCum e l).getD t 0 ≤ (tpCum e l).getD u 0 := by
    intro t u htu hu
    rw [hcumgetD t (lt_of_le_of_lt htu hu), hcumgetD u hu]
    exact take_sum_le_take_sum _ hnn (by omega)
  have hex : ∃ t, t < l.length ∧ top_p < (tpCum e l).getD t 0 := by
    refine ⟨l.length - 1, by omega, ?_⟩
    rw [hcumgetD _ (by omega)]
    have : l.length - 1 + 1 = l.length := by omega
    rw [this, List.take_of_length_le (le_of_eq hplen), hsum1]
    exact htp1
  set jmin := Nat.find hex with hjdef
  obtain ⟨hjlt, hjgt⟩ := Nat.find_spec hex
  have hbelow : ∀ s, s < jmin → (tpCum e l).getD s 0 ≤ top_p := by
    intro s hs
    have hmin := Nat.find_min hex hs
    have hsn : s < l.length := lt_trans hs hjlt
    push_neg at hmin
    exact hmin hsn
  have hshlen : (tpShifted e top_p l).length = l.length := tpShifted_length e top_p l hne
  -- the shifted mask keeps exactly sorted positions `0 .. jmin`
  have hshift : ∀ t, ∀ ht : t < l.length,
      ((tpShifted e top_p l).get ⟨t, by rw [hshlen]; exact ht⟩ = false ↔ t ≤ jmin) := by
    intro t ht
    cases t with
    | zero =>
      constructor
      · intro _; exact Nat.zero_le _
      · intro _
        exact tpShifted_head e top_p l (by rw [hshlen]; exact ht)
    | succ t =>
      have htn : t < l.length := by omega
      have hmasklen : ((tpCum e l).map (fun c => decide (top_p < c))).length = l.length := by
        rw [List.length_map, tpCum_length]
      have hdl : t < ((tpCum e l).map (fun c => decide (top_p < c))).dropLast.length := by
        rw [List.length_dropLast, hmasklen]
        omega
      have hval : (tpShifted e top_p l).get ⟨t + 1, by rw [hshlen]; exact ht⟩ =
          decide (top_p < (tpCum e l).getD t 0) := by
        show ((false : Bool) :: ((tpCum e l).map (fun c => decide (top_p < c))).dropLast).get
            ⟨t + 1, _⟩ = _
        simp only [List.get_eq_getElem, List.getElem_cons_succ]
        rw [List.getElem_dropLast, List.getElem_map]
        rw [List.getD_eq_getElem _ 0 (by rw [tpCum_length]; exact htn)]
      rw [hval]
      constructor
      · intro hfalse
        by_contra hgt
        have hjt : jmin ≤ t := by omega
        have hmono2 := hcummono jmin t hjt htn
        have hlt2 : top_p < (tpCum e l).getD t 0 := lt_of_lt_of_le hjgt hmono2
        rw [decide_eq_false_iff_not] at hfalse
        exact hfalse hlt2
      · intro hle
        have htj : t < jmin := by omega
        have hb := hbelow t htj
        rw [decide_eq_false_iff_not]
        exact not_lt.mpr hb
  -- positions of original indices in the sorted order
  have hsidxlen : (tpSidx l).length = l.length := tpSidx_length l
  have hπlt : ∀ i, i < l.length → (tpSidx l).indexOf i < l.length := by
    intro i hi
    rw [← hsidxlen]
    exact List.indexOf_lt_length.mpr (tpSidx_mem l i hi)
  have hπget : ∀ i, i < l.length → (tpSidx l)[(tpSidx l).indexOf i]? = some i := by
    intro i hi
    have h1 : (tpSidx l).indexOf i < (tpSidx l).length :=
      List.indexOf_lt_length.mpr (tpSidx_mem l i hi)
    rw [List.getElem?_eq_getElem h1]
    exact congrArg some (List.getElem_indexOf h1)
  have hsidx_lt : ∀ t, ∀ ht : t < l.length, ∀ i,
      (tpSidx l)[t]? = some i → i < l.length := by
    intro t ht i hget
    have ht' : t < (tpSidx l).length := by rw [hsidxlen]; exact ht
    obtain ⟨h1, h2⟩ := List.getElem?_eq_some.mp hget
    have hmem : i ∈ tpSidx l := h2 ▸ List.getElem_mem h1
    exact List.mem_range.mp ((tpSidx_perm_range l).mem_iff.mp hmem)
  have huniq : ∀ i t, ∀ ht : t < l.length,
      (tpSidx l)[t]? = some i → t = (tpSidx l).indexOf i := by
    intro i t ht hget
    have hi : i < l.length := hsidx_lt t ht i hget
    have h2 := hπget i hi
    obtain ⟨hb1, hv1⟩ := List.getElem?_eq_some.mp hget
    obtain ⟨hb2, hv2⟩ := List.getElem?_eq_some.mp h2
    exact (tpSidx_nodup l).getElem_inj_iff.mp (hv1.trans hv2.symm)
  have hmn : jmin + 1 ≤ l.length := hjlt
  have htakelen : ((tpSidx l).take (jmin + 1)).length = jmin + 1 := by
    rw [List.length_take, hsidxlen]
    omega
  have htakend : ((tpSidx l).take (jmin + 1)).Nodup :=
    (List.take_sublist _ _).nodup (tpSidx_nodup l)
  have hKmem : ∀ i, i ∈ ((tpSidx l).take (jmin + 1)).toFinset ↔
      ∃ t, t ≤ jmin ∧ (tpSidx l)[t]? = some i := by
    intro i
    rw [List.mem_toFinset]
    constructor
    · intro h
      obtain ⟨t, ht, hget⟩ := List.mem_iff_getElem.mp h
      rw [htakelen] at ht
      refine ⟨t, by omega, ?_⟩
      have ht2 : t < (tpSidx l).length := by rw [hsidxlen]; omega
      rw [List.getElem?_eq_getElem ht2]
      rw [List.getElem_take] at hget
      exact congrArg some hget
    · rintro ⟨t, htj, hget⟩
      obtain ⟨hb, hv⟩ := List.getElem?_eq_some.mp hget
      have ht3 : t < ((tpSidx l).take (jmin + 1)).length := by rw [htakelen]; omega
      rw [List.mem_iff_getElem]
      refine ⟨t, ht3, ?_⟩
      rw [List.getElem_take]
      exact hv
  have hKiff : ∀ i, i < l.length →
      (i ∈ ((tpSidx l).take (jmin + 1)).toFinset ↔ (tpSidx l).indexOf i ≤ jmin) := by
    intro i hi
    rw [hKmem]
    constructor
    · rintro ⟨t, htj, hget⟩
      have heq := huniq i t (by omega) hget
      omega
    · intro hle
      exact ⟨(tpSidx l).indexOf i, hle, hπget i hi⟩
  have hremiff : ∀ i, i < l.length →
      (i ∈ tpRemove e top_p l ↔ ¬ i ∈ ((tpSidx l).take (jmin + 1)).toFinset) := by
    intro i hi
    rw [tpRemove_mem_iff e top_p l hne i, hKiff i hi]
    constructor
    · rintro ⟨t, ht, hidx, hsh⟩
      have hget : (tpSidx l)[t]? = some i := by
        rw [List.getElem?_eq_getElem (by rw [hsidxlen]; exact ht)]
        refine congrArg some ?_
        simpa [List.get_eq_getElem] using hidx
      have hteq := huniq i t ht hget
      intro hcon
      rw [← hteq] at hcon
      have hfalse := (hshift t ht).mpr hcon
      rw [hfalse] at hsh
      exact Bool.noConfusion hsh
    · intro hgt
      refine ⟨(tpSidx l).indexOf i, hπlt i hi, ?_, ?_⟩
      · obtain ⟨hb, hv⟩ := List.getElem?_eq_some.mp (hπget i hi)
        simp only [List.get_eq_getElem]
        exact hv
      · have hiff := hshift ((tpSidx l).indexOf i) (hπlt i hi)
        by_contra hconn
        have hisfalse : (tpShifted e top_p l).get
            ⟨(tpSidx l).indexOf i, by rw [hshlen]; exact hπlt i hi⟩ = false := by
          cases hcase : (tpShifted e top_p l).get
              ⟨(tpSidx l).indexOf i, by rw [hshlen]; exact hπlt i hi⟩ with
          | false => rfl
          | true => exact absurd hcase hconn
        exact hgt (hiff.mp hisfalse)
  have hres : ∀ i, ∀ hi : i < l.length, (topPStage e top_p ⊥ l)[i]? =
      some (if i ∈ tpRemove e top_p l then ⊥ else l.get ⟨i, hi⟩) := by
    intro i hi
    rw [topPStage_pos e top_p ⊥ l htp0, List.getElem?_map,
      List.getElem?_eq_getElem (by rw [List.enum_length]; exact hi),
      Option.map_some', List.getElem_enum]
    simp only [List.get_eq_getElem]
  have hπprob : ∀ t, ∀ ht : t < l.length, ∀ i, (tpSidx l)[t]? = some i →
      tokenProb e l i = (softmax e (tpSlg l)).getD t 0 := by
    intro t ht i hget
    have hts := tokenProb_at_sidx e l t ht
    obtain ⟨hb, hv⟩ := List.getElem?_eq_some.mp hget
    simp only [List.get_eq_getElem] at hts
    rw [hv] at hts
    exact hts
  have hmassK : massOf e l ((tpSidx l).take (jmin + 1)).toFinset =
      (tpCum e l).getD jmin 0 := by
    rw [massOf, List.sum_toFinset _ htakend]
    have hlisteq : ((tpSidx l).take (jmin + 1)).map (tokenProb e l) =
        (softmax e (tpSlg l)).take (jmin + 1) := by
      apply List.ext_getElem
      · rw [List.length_map, htakelen, List.length_take, hplen]
        omega
      · intro t h1 h2
        rw [List.length_map, htakelen] at h1
        have htl : t < l.length := by omega
        rw [List.getElem_map, List.getElem_take, List.getElem_take]
        have hget : (tpSidx l)[t]? = some ((tpSidx l)[t]) :=
          List.getElem?_eq_getElem (by rw [hsidxlen]; exact htl)
        rw [hπprob t htl _ hget]
        rw [List.getD_eq_getElem _ 0 (by rw [hplen]; exact htl)]
    rw [hlisteq, hcumgetD jmin hjlt]
  have hinjOn : ∀ (S : Finset ℕ), S ⊆ Finset.range l.length →
      Set.InjOn (fun i => (tpSidx l).indexOf i) S := by
    intro S hS x hx y hy hxy
    have hxn : x < l.length := Finset.mem_range.mp (hS hx)
    have hyn : y < l.length := Finset.mem_range.mp (hS hy)
    have h1 := hπget x hxn
    have h2 := hπget y hyn
    simp only at hxy
    rw [hxy] at h1
    rw [h1] at h2
    exact Option.some.inj h2
  have hmassS : ∀ (S : Finset ℕ), S ⊆ Finset.range l.length →
      massOf e l S = ∑ t ∈ S.image (fun i => (tpSidx l).indexOf i),
        (softmax e (tpSlg l)).getD t 0 := by
    intro S hS
    rw [Finset.sum_image (fun x hx y hy hxy => hinjOn S hS hx hy hxy)]
    rw [massOf]
    apply Finset.sum_congr rfl
    intro i hi
    have hin : i < l.length := Finset.mem_range.mp (hS hi)
    exact hπprob _ (hπlt i hin) i (hπget i hin)
  have hmin : ∀ S : Finset ℕ, S ⊆ Finset.range l.length →
      top_p < massOf e l S → jmin + 1 ≤ S.card := by
    intro S hS hSm
    by_contra hlt
    have hcard : S.card ≤ jmin := by omega
    have hTsub : S.image (fun i => (tpSidx l).indexOf i) ⊆ Finset.range l.length := by
      intro t htm
      obtain ⟨i, hiS, hit⟩ := Finset.mem_image.mp htm
      have hin : i < l.length := Finset.mem_range.mp (hS hiS)
      rw [← hit]
      exact Finset.mem_range.mpr (hπlt i hin)
    have hTcard : (S.image (fun i => (tpSidx l).indexOf i)).card = S.card :=
      Finset.card_image_of_injOn (hinjOn S hS)
    have hb1 := sum_le_sum_range_card l.length
      (fun t => (softmax e (tpSlg l)).getD t 0) hanti
      (S.image (fun i => (tpSidx l).indexOf i)) hTsub
    rw [hTcard] at hb1
    have hb2 : (∑ t ∈ Finset.range S.card, (softmax e (tpSlg l)).getD t 0) =
        ((softmax e (tpSlg l)).take S.card).sum := by
      have : ∀ t, (softmax e (tpSlg l)).getD t 0 = (softmax e (tpSlg l)).getD t 0 := fun _ => rfl
      rw [← sum_range_getD_eq_take_sum (softmax e (tpSlg l)) S.card (by rw [hplen]; omega)]
    have hb3 : ((softmax e (tpSlg l)).take S.card).sum ≤
        ((softmax e (tpSlg l)).take jmin).sum :=
      take_sum_le_take_sum _ hnn hcard
    have hb4 : ((softmax e (tpSlg l)).take jmin).sum ≤ top_p := by
      rcases Nat.eq_zero_or_pos jmin with hz | hposj
      · rw [hz, List.take_zero, List.sum_nil]
        exact le_of_lt htp0
      · have hbel := hbelow (jmin - 1) (by omega)
        rw [hcumgetD (jmin - 1) (by omega)] at hbel
        have heq : jmin - 1 + 1 = jmin := by omega
        rw [heq] at hbel
        exact hbel
    rw [hmassS S hS] at hSm
    linarith
  have htop : ∀ i ∈ ((tpSidx l).take (jmin + 1)).toFinset, ∀ j, j < l.length →
      j ∉ ((tpSidx l).take (jmin + 1)).toFinset →
      tokenProb e l j ≤ tokenProb e l i := by
    intro i hiK j hj hjK
    have hiN : i < l.length := by
      obtain ⟨t, htj, hget⟩ := (hKmem i).mp hiK
      exact hsidx_lt t (by omega) i hget
    have hπi := (hKiff i hiN).mp hiK
    have hπj : ¬ (tpSidx l).indexOf j ≤ jmin := fun hc => hjK ((hKiff j hj).mpr hc)
    rw [hπprob _ (hπlt i hiN) i (hπget i hiN), hπprob _ (hπlt j hj) j (hπget j hj)]
    exact hanti ((tpSidx l).indexOf i) ((tpSidx l).indexOf j) (by omega) (hπlt j hj)
  have hKsub : ((tpSidx l).take (jmin + 1)).toFinset ⊆ Finset.range l.length := by
    intro i hiK
    obtain ⟨t, htj, hget⟩ := (hKmem i).mp hiK
    exact Finset.mem_range.mpr (hsidx_lt t (by omega) i hget)
  have hcardK : (((tpSidx l).take (jmin + 1)).toFinset).card = jmin + 1 := by
    rw [List.toFinset_card_of_nodup htakend, htakelen]
  refine ⟨((tpSidx l).take (jmin + 1)).toFinset, hKsub, ?_, ?_, ?_, htop⟩
  · intro i hi
    constructor
    · intro hiK
      rw [hres i hi, if_neg (fun hr => (hremiff i hi).mp hr hiK)]
    · intro hiNK
      rw [hres i hi, if_pos ((hremiff i hi).mpr hiNK)]
  · rw [hmassK]
    exact hjgt
  · intro S hS hSm
    rw [hcardK]
    exact hmin S hS hSm

/-- C1 (amended): for every non-empty finite logits vector, with `top_k = 0`,
`0 < top_p < 1` and the default `threshold = -inf`, `top_filtering` leaves
unfiltered exactly a set of highest-softmax-probability tokens whose
cumulative probability exceeds `top_p`, of smallest cardinality among all
token sets whose cumulative probability exceeds `top_p`, and assigns
`filter_value` (`-inf`) to every other index.  (For `top_p ≥ 1` no token set
has cumulative probability exceeding `top_p` and the code filters nothing,
see the counterexample.)  The weight function `e` stands for `exp`: positive
and monotone on finite values. -/
theorem nucleus_filtering_smallest_set (logits : List ℚ) (hne : logits ≠ [])
    (e : WithBot ℚ → ℚ)
    (hepos : ∀ q : ℚ, 0 < e (q : WithBot ℚ))
    (hemono : ∀ q r : ℚ, q ≤ r → e (q : WithBot ℚ) ≤ e (r : WithBot ℚ))
    (top_p : ℚ) (htp0 : 0 < top_p) (htp1 : top_p < 1) :
    ∃ K : Finset ℕ,
      K ⊆ Finset.range logits.length ∧
      (∀ i, ∀ hi : i < logits.length,
        (i ∈ K → (top_filtering e 0 top_p ⊥ ⊥ (finiteLogits logits))[i]? =
          some ((logits.get ⟨i, hi⟩ : ℚ) : WithBot ℚ)) ∧
        (i ∉ K → (top_filtering e 0 top_p ⊥ ⊥ (finiteLogits logits))[i]? = some ⊥)) ∧
      top_p < massOf e (finiteLogits logits) K ∧
      (∀ S : Finset ℕ, S ⊆ Finset.range logits.length →
        top_p < massOf e (finiteLogits logits) S → K.card ≤ S.card) ∧
      (∀ i ∈ K, ∀ j, j < logits.length → j ∉ K →
        tokenProb e (finiteLogits logits) j ≤ tokenProb e (finiteLogits logits) i) := by
  have hlen : (finiteLogits logits).length = logits.length := finiteLogits_length _
  have hcoe : ∀ x ∈ finiteLogits logits, ∃ q : ℚ, x = (q : WithBot ℚ) := by
    intro x hx
    obtain ⟨q, -, h⟩ := finiteLogits_mem hx
    exact ⟨q, h⟩
  obtain ⟨K, h1, h2, h3, h4, h5⟩ := topPStage_nucleus_spec e (finiteLogits logits)
    (finiteLogits_ne_nil hne) hcoe hepos hemono top_p htp0 htp1
  have hTF : top_filtering e 0 top_p ⊥ ⊥ (finiteLogits logits) =
      topPStage e top_p ⊥ (finiteLogits logits) := by
    rw [top_filtering, topKStage_zero, thresholdStage_bot]
  refine ⟨K, by rwa [hlen] at h1, ?_, h3, ?_, ?_⟩
  · intro i hi
    have hi2 : i < (finiteLogits logits).length := by rw [hlen]; exact hi
    obtain ⟨ha, hb⟩ := h2 i hi2
    constructor
    · intro hiK
      rw [hTF, ha hiK, finiteLogits_getElem logits i hi]
    · intro hiNK
      rw [hTF, hb hiNK]
  · intro S hS hSm
    exact h4 S (by rw [hlen]; exact hS) hSm
  · intro i hiK j hj hjNK
    exact h5 i hiK j (by rw [hlen]; exact hj) hjNK

theorem nucleus_filtering_smallest_set_witness :
    ∃ K : Finset ℕ,
      K ⊆ Finset.range ([2, 1] : List ℚ).length ∧
      (∀ i, ∀ hi : i < ([2, 1] : List ℚ).length,
        (i ∈ K → (top_filtering (fun _ => 1) 0 (1 / 2) ⊥ ⊥ (finiteLogits [2, 1]))[i]? =
          some ((([2, 1] : List ℚ).get ⟨i, hi⟩ : ℚ) : WithBot ℚ)) ∧
        (i ∉ K → (top_filtering (fun _ => 1) 0 (1 / 2) ⊥ ⊥ (finiteLogits [2, 1]))[i]? =
          some ⊥)) ∧
      (1 : ℚ) / 2 < massOf (fun _ => 1) (finiteLogits [2, 1]) K ∧
      (∀ S : Finset ℕ, S ⊆ Finset.range ([2, 1] : List ℚ).length →
        (1 : ℚ) / 2 < massOf (fun _ => 1) (finiteLogits [2, 1]) S → K.card ≤ S.card) ∧
      (∀ i ∈ K, ∀ j, j < ([2, 1] : List ℚ).length → j ∉ K →
        tokenProb (fun _ => 1) (finiteLogits [2, 1]) j ≤
          tokenProb (fun _ => 1) (finiteLogits [2, 1]) i) :=
  nucleus_filtering_smallest_set [2, 1] (by decide) (fun _ => 1)
    (fun q => by norm_num) (fun q r h => le_refl 1) (1 / 2) (by norm_num) (by norm_num)

/-- C1 counterexample: at `top_p = 1` (allowed by the claim's `top_p > 0`)
the claim fails on the one-token vector `[0]`: the code filters nothing, yet
no token set has cumulative softmax probability exceeding `1`, so the kept
set is not a "smallest set whose cumulative probability exceeds top_p". -/
theorem nucleus_filtering_counterexample_top_p_one :
    ¬ ∃ K : Finset ℕ,
      K ⊆ Finset.range ([0] : List ℚ).length ∧
      (∀ i, ∀ hi : i < ([0] : List ℚ).length,
        (i ∈ K → (top_filtering (fun _ => 1) 0 1 ⊥ ⊥ (finiteLogits [0]))[i]? =
          some ((([0] : List ℚ).get ⟨i, hi⟩ : ℚ) : WithBot ℚ)) ∧
        (i ∉ K → (top_filtering (fun _ => 1) 0 1 ⊥ ⊥ (finiteLogits [0]))[i]? = some ⊥)) ∧
      (1 : ℚ) < massOf (fun _ => 1) (finiteLogits [0]) K := by
  rintro ⟨K, hsub, hexact, hmass⟩
  have hlen1 : ([0] : List ℚ).length = 1 := rfl
  rw [hlen1, Finset.range_one] at hsub
  rcases Finset.subset_singleton_iff.mp hsub with rfl | rfl
  · have h := (hexact 0 (by norm_num)).2 (Finset.not_mem_empty 0)
    have hval : (top_filtering (fun _ => 1) 0 1 ⊥ ⊥ (finiteLogits [0]))[0]? =
        some ((0 : ℚ) : WithBot ℚ) := by
      obtain ⟨i, hi, -, hkeep⟩ := topPStage_keeps_top (fun _ => 1) 1 ⊥
        (finiteLogits [0]) (by simp [finiteLogits])
      have hlen0 : (finiteLogits [0]).length = 1 := rfl
      have hi0 : i = 0 := by omega
      subst hi0
      rw [top_filtering, topKStage_zero, thresholdStage_bot, hkeep]
      rfl
    rw [hval] at h
    have : ((0 : ℚ) : WithBot ℚ) = (⊥ : WithBot ℚ) := Option.some.inj h
    exact absurd this (by simp)
  · have hm : massOf (fun _ => 1) (finiteLogits [0]) ({0} : Finset ℕ) = 1 := by
      rw [massOf, Finset.sum_singleton, tokenProb]
      norm_num [finiteLogits, softmaxSum]
    rw [hm] at hmass
    exact absurd hmass (lt_irrefl 1)
